import Mathlib

/-!
Verification development for the hybrid retrieval core of the RAG-js
repository (src/hybridSearchEngine.js, src/queryEngine.js,
src/questionClassifier.js, src/vectorStore.js).

The JavaScript sources are shallowly embedded: JS strings become `String`
(lists of characters), JS numbers used as scores become `ℚ`, JS objects
become structures with `Option` fields for properties that may be absent,
JS `Map` (insertion ordered) becomes an association list that appends new
keys at the end, the stable `Array.prototype.sort` (ES2019) becomes a
stable insertion sort, and `try`/`catch` around external calls becomes
`Except`.  The external collaborators (FAISS similarity search, the
classification LLM) are injected as explicit oracle arguments of type
`Except String _`, exactly the shape the coordinator observes.

File layout: JS-faithful definitions first, then generic lemmas about the
sorting and association-list helpers, then one theorem (plus witness or
counterexample) per specification claim.
-/

/-- A JavaScript value flowing through a slot that the code treats as text.
`missing` covers `undefined`/`null` (falsy), `nonString` covers a truthy
value of a non-string type (the `typeof text !== 'string'` branch of
`preprocessText`; a falsy non-string falls through the `||` chains and ends
up as `''`, which the `str ""` constructor covers). -/
inductive JsStr where
  | missing
  | nonString
  | str (s : String)
deriving DecidableEq, Repr

/-- JS truthiness of a `JsStr`: `undefined`/`null` and `''` are falsy. -/
def JsStr.truthy : JsStr → Bool
  | .missing => false
  | .nonString => true
  | .str s => s ≠ ""

/-- The `a || b` idiom on two string-ish slots. -/
def jsOrJs (a b : JsStr) : JsStr := if a.truthy then a else b

/-- The `o || d` idiom on an optional string property: `undefined` and the
empty string are falsy and select the default. -/
def jsOrStr (o : Option String) (d : String) : String :=
  match o with
  | some s => if s = "" then d else s
  | none => d

/-- Character class of the JS regex `\s` (the ASCII part; the queries and
corpora under study contain no exotic Unicode spaces). -/
def isJsSpace (c : Char) : Bool :=
  c = ' ' ∨ c = '\t' ∨ c = '\n' ∨ c = '\r' ∨ c = '\x0b' ∨ c = '\x0c'

/-- Character class of the JS regex `\w`. -/
def isWordChar (c : Char) : Bool :=
  ('a' ≤ c ∧ c ≤ 'z') ∨ ('A' ≤ c ∧ c ≤ 'Z') ∨ ('0' ≤ c ∧ c ≤ '9') ∨ c = '_'

/-- CJK ideograph range `一`-`鿿` kept by `preprocessText`. -/
def isCJK (c : Char) : Bool :=
  0x4e00 ≤ c.toNat ∧ c.toNat ≤ 0x9fff

/-- One character step of `.replace(/[^\w\s一-鿿]/g, ' ')`. -/
def sanitizeChar (c : Char) : Char :=
  if isWordChar c ∨ isJsSpace c ∨ isCJK c then c else ' '

/-- The effect of `.replace(/\s+/g, ' ')`: every maximal whitespace run
collapses to a single space. -/
def collapseWs : List Char → List Char
  | [] => []
  | [c] => if isJsSpace c then [' '] else [c]
  | c :: d :: cs =>
    if isJsSpace c ∧ isJsSpace d then collapseWs (d :: cs)
    else (if isJsSpace c then ' ' else c) :: collapseWs (d :: cs)

/-- The effect of `.trim()` on a character list. -/
def trimWsChars (cs : List Char) : List Char :=
  ((cs.dropWhile isJsSpace).reverse.dropWhile isJsSpace).reverse

/-- String (list of chars) lower-cased character by character, the model of
`String.prototype.toLowerCase` on the ASCII/CJK alphabets in play. -/
def lowerChars (cs : List Char) : List Char := cs.map Char.toLower

/-- Body of `preprocessText` on an actual string:
`text.toLowerCase().replace(/[^\w\s一-鿿]/g,' ').replace(/\s+/g,' ').trim()`. -/
def cleanupText (s : String) : String :=
  ⟨trimWsChars (collapseWs ((lowerChars s.data).map sanitizeChar))⟩

/-- `HybridSearchEngine.preprocessText`: a missing or non-string value is
mapped to `''` by the leading guard, otherwise the text is cleaned up. -/
def preprocessText : JsStr → String
  | .str s => cleanupText s
  | _ => ""

/-- The model of `String.prototype.split(' ')`: split at every single
space, keeping empty fragments (so `''.split(' ')` is `['']`). -/
def splitSp : List Char → List (List Char)
  | [] => [[]]
  | c :: cs =>
    let r := splitSp cs
    if c = ' ' then [] :: r
    else
      match r with
      | t :: ts => (c :: t) :: ts
      | [] => [[c]]

/-- `processed.split(' ').filter(term => term.length > 0)`. -/
def tokenize (s : String) : List String :=
  ((splitSp s.data).filter (fun t => t ≠ [])).map (fun cs => ⟨cs⟩)

/-- Metadata object carried by a chunk; every property may be absent. -/
structure ChunkMeta where
  source : Option String := none
  chunkIndex : Option Nat := none
  fileType : Option String := none
  processedAt : Option String := none
  mtype : Option String := none
deriving DecidableEq, Repr

/-- A corpus document as handed to `buildIndex`: the code reads
`doc.pageContent || doc.content || ''` and `doc.metadata`. -/
structure SrcDoc where
  pageContent : JsStr := .missing
  content : JsStr := .missing
  metadata : Option ChunkMeta := none
deriving DecidableEq, Repr

/-- `doc.pageContent || doc.content || ''` as evaluated by `buildIndex`
and `keywordSearch`. -/
def docContent (d : SrcDoc) : JsStr :=
  jsOrJs d.pageContent (jsOrJs d.content (.str ""))

/-- A search result object `{content, metadata, score, searchType, ...}`
as produced by the keyword, semantic and fused paths; the four provenance
fields are only filled in by `fuseResults`. -/
structure SearchResult where
  content : JsStr := .missing
  metadata : Option ChunkMeta := none
  score : ℚ := 0
  searchType : Option String := none
  keywordRank : Option Nat := none
  keywordScore : Option ℚ := none
  semanticRank : Option Nat := none
  semanticScore : Option ℚ := none
deriving DecidableEq, Repr

/-- `HybridSearchEngine.getDocumentId`:
``${metadata.source || 'unknown'}_${metadata.chunkIndex || 0}`` with
`metadata` defaulting to the empty object. -/
def getDocumentId (r : SearchResult) : String :=
  let md := r.metadata.getD {}
  jsOrStr md.source "unknown" ++ "_" ++ toString (md.chunkIndex.getD 0)

/-- Document/score pair returned by the FAISS layer
(`similaritySearchWithScore`), before `VectorStore.similaritySearch`
re-shapes it. -/
structure FaissDoc where
  pageContent : String := ""
  metadata : ChunkMeta := {}
deriving DecidableEq, Repr

/-- The `VectorStore` wrapper around FAISS: the stored FAISS index is an
opaque oracle (`oracle q k` models `this.vectorStore.similaritySearchWithScore`,
erroring when that call throws). -/
structure VectorStore where
  isInitialized : Bool := false
  documentsCount : Nat := 0
  initializationError : Option String := none
  oracle : String → Nat → Except String (List (FaissDoc × ℚ)) := fun _ _ => .ok []

/-- `VectorStore.similaritySearch`: rejects an uninitialized store, returns
`[]` for an empty corpus, filters the dummy initialization document and
re-shapes `[doc, score]` pairs; any internal throw is re-thrown as
`Search failed: ...`. -/
def VectorStore.similaritySearch (v : VectorStore) (q : String) (k : Nat) :
    Except String (List SearchResult) :=
  if v.isInitialized = false then
    .error ("Search failed: Vector store not available: " ++
      v.initializationError.getD "Initialization failed")
  else if v.documentsCount = 0 then .ok []
  else
    match v.oracle q k with
    | .error msg => .error ("Search failed: " ++ msg)
    | .ok pairs =>
      .ok (((pairs.filter (fun p => p.1.metadata.mtype ≠ some "dummy")).map
        (fun p => { content := .str p.1.pageContent, metadata := some p.1.metadata,
                    score := p.2 : SearchResult })))

/-- The `HybridSearchEngine` state (the TF-IDF variant): the `natural`
`TfIdf` index is represented by the per-document token lists the engine
feeds it through `addDocument`. -/
structure HybridEngine where
  vectorStore : VectorStore := {}
  tfidfDocs : List (List String) := []
  documents : List SrcDoc := []
  documentMetadata : List (Option ChunkMeta) := []
  isIndexed : Bool := false

/-- `HybridSearchEngine.buildIndex`: stores the corpus, resets the TF-IDF
state and re-adds every document's preprocessed content, then flips
`isIndexed`. -/
def buildIndex (e : HybridEngine) (docs : List SrcDoc) : HybridEngine :=
  { e with
    documents := docs
    documentMetadata := docs.map (fun d => d.metadata)
    tfidfDocs := docs.map (fun d => tokenize (preprocessText (docContent d)))
    isIndexed := true }

/-- The tf–idf statistic of the `natural` library for one term and one
document: raw term count times the corpus idf weight.  `natural` is an
external dependency, so its idf statistic (`1 + log(N/(1+df))`, a fixed
real number per term once the corpus is built) is abstracted into the
`idf` argument; every claim under study is insensitive to its value. -/
def tfidfScore (idf : String → ℚ) (term : String) (docTokens : List String) : ℚ :=
  (docTokens.count term : ℚ) * idf term

/-- The per-document score loop of `keywordSearch`:
`queryTerms.forEach(term => { score += this.tfidf.tfidf(term, i); })`. -/
def docScore (idf : String → ℚ) (terms : List String) (docTokens : List String) : ℚ :=
  terms.foldl (fun acc t => acc + tfidfScore idf t docTokens) 0

/-- One iteration of the `keywordSearch` scoring loop at corpus index `i`:
the document enters the candidate array iff its summed score is `> 0`. -/
def candidateAt (e : HybridEngine) (idf : String → ℚ) (terms : List String)
    (i : Nat) : Option SearchResult :=
  let tokens := e.tfidfDocs.getD i []
  let score := docScore idf terms tokens
  if 0 < score then
    let d := e.documents.getD i {}
    some { content := docContent d, metadata := d.metadata, score := score,
           searchType := some "keyword" }
  else none

/-- The candidate array of `keywordSearch`, built in original corpus
order. -/
def keywordCandidates (e : HybridEngine) (idf : String → ℚ)
    (terms : List String) : List SearchResult :=
  (List.range e.documents.length).filterMap (candidateAt e idf terms)

/-- Stable insertion step for a descending sort by `key`: the inserted
element goes after every earlier element whose key is `≥` its own, the
behaviour of the stable ES2019 `Array.prototype.sort` with comparator
`(a, b) => key(b) - key(a)`. -/
def insertByDesc {α β : Type} [LinearOrder β] (key : α → β) (x : α) :
    List α → List α
  | [] => [x]
  | y :: ys => if key y ≤ key x then x :: y :: ys else y :: insertByDesc key x ys

/-- Stable descending sort by `key` (model of the JS stable sort). -/
def sortByDesc {α β : Type} [LinearOrder β] (key : α → β) : List α → List α
  | [] => []
  | x :: xs => insertByDesc key x (sortByDesc key xs)

/-- Stable insertion step for an ascending sort by `key` (comparator
`(a, b) => key(a) - key(b)`). -/
def insertByAsc {α β : Type} [LinearOrder β] (key : α → β) (x : α) :
    List α → List α
  | [] => [x]
  | y :: ys => if key x ≤ key y then x :: y :: ys else y :: insertByAsc key x ys

/-- Stable ascending sort by `key`. -/
def sortByAsc {α β : Type} [LinearOrder β] (key : α → β) : List α → List α
  | [] => []
  | x :: xs => insertByAsc key x (sortByAsc key xs)

/-- `HybridSearchEngine.keywordSearch`: empty when unindexed, empty when
the query preprocesses to no terms, otherwise the positive-score
candidates sorted descending by score (stable) and truncated to `k`. -/
def keywordSearch (e : HybridEngine) (idf : String → ℚ) (query : String)
    (k : Nat) : List SearchResult :=
  if e.isIndexed = false then []
  else
    let terms := tokenize (preprocessText (.str query))
    if terms = [] then []
    else (sortByDesc (fun r => r.score) (keywordCandidates e idf terms)).take k

/-- `HybridSearchEngine.semanticSearch`: delegates to the vector store and
tags results `semantic`; the `catch` turns any throw into `[]`. -/
def semanticSearch (e : HybridEngine) (q : String) (k : Nat) : List SearchResult :=
  match e.vectorStore.similaritySearch q k with
  | .ok rs => rs.map (fun r => { r with searchType := some "semantic" })
  | .error _ => []

/-- An entry of the `resultMap` of `fuseResults`: the spread of the first
result that created it plus the running fused score and the provenance
fields the two passes maintain. -/
structure FusedEntry where
  result : SearchResult
  fusedScore : ℚ
  keywordRank : Option Nat
  keywordScore : Option ℚ
  semanticRank : Option Nat
  semanticScore : Option ℚ
deriving DecidableEq, Repr

/-- The `resultMap` (a JS `Map`, hence insertion ordered): an association
list whose `set` of a fresh key appends at the end. -/
abbrev RMap := List (String × FusedEntry)

/-- `Map.prototype.get` on the model. -/
def lookupE (k : String) : RMap → Option FusedEntry
  | [] => none
  | (k', e) :: m => if k' = k then some e else lookupE k m

/-- Update of an existing entry by the keyword pass
(`existing.fusedScore += rrfScore; existing.keywordRank = index + 1; ...`)
or by the semantic pass, selected by `isKw`. -/
def bumpEntry (isKw : Bool) (w : ℚ) (idx : Nat) (r : SearchResult)
    (e : FusedEntry) : FusedEntry :=
  if isKw then
    { e with fusedScore := e.fusedScore + w / (60 + idx + 1),
             keywordRank := some (idx + 1), keywordScore := some r.score }
  else
    { e with fusedScore := e.fusedScore + w / (60 + idx + 1),
             semanticRank := some (idx + 1), semanticScore := some r.score }

/-- Fresh entry created when a document id is first encountered. -/
def newEntry (isKw : Bool) (w : ℚ) (idx : Nat) (r : SearchResult) : FusedEntry :=
  if isKw then
    { result := r, fusedScore := w / (60 + idx + 1),
      keywordRank := some (idx + 1), keywordScore := some r.score,
      semanticRank := none, semanticScore := none }
  else
    { result := r, fusedScore := w / (60 + idx + 1),
      keywordRank := none, keywordScore := none,
      semanticRank := some (idx + 1), semanticScore := some r.score }

/-- One iteration of a `results.forEach((result, index) => ...)` pass of
`fuseResults` with RRF constant `k = 60`: the contribution at 0-based
`index` is `weight / (60 + index + 1)` and is added to an existing entry
or seeds a new one. -/
def rrfStep (isKw : Bool) (w : ℚ) (idx : Nat) (m : RMap) (r : SearchResult) : RMap :=
  let docId := getDocumentId r
  match lookupE docId m with
  | some _ => m.map (fun p => if p.1 = docId then (p.1, bumpEntry isKw w idx r p.2) else p)
  | none => m ++ [(docId, newEntry isKw w idx r)]

/-- A whole `forEach` pass of `fuseResults` starting at index `idx`. -/
def rrfFold (isKw : Bool) (w : ℚ) : Nat → RMap → List SearchResult → RMap
  | _, m, [] => m
  | idx, m, r :: rs => rrfFold isKw w (idx + 1) (rrfStep isKw w idx m r) rs

/-- The final re-shaping of a map entry performed by `fuseResults`. -/
def finalizeEntry (e : FusedEntry) : SearchResult :=
  { content := e.result.content, metadata := e.result.metadata,
    score := e.fusedScore, keywordRank := e.keywordRank,
    keywordScore := e.keywordScore, semanticRank := e.semanticRank,
    semanticScore := e.semanticScore, searchType := some "hybrid" }

/-- `HybridSearchEngine.fuseResults`: keyword pass, semantic pass, then the
map's values sorted descending by fused score (stable, in insertion order
on ties) and re-shaped. -/
def fuseResults (keywordResults semanticResults : List SearchResult)
    (keywordWeight semanticWeight : ℚ) : List SearchResult :=
  let m := rrfFold true keywordWeight 0 [] keywordResults
  let m2 := rrfFold false semanticWeight 0 m semanticResults
  (sortByDesc (fun e => e.fusedScore) (m2.map (fun p => p.2))).map finalizeEntry

/-- `HybridSearchEngine.hybridSearch` (TF-IDF variant): runs the keyword
and semantic searches (defaults: `maxResults = 4`, weights `0.3`/`0.7`,
sub-search sizes `10`/`10`), fuses them and keeps the first `maxResults`
fused results. -/
def hybridSearch (e : HybridEngine) (idf : String → ℚ) (query : String)
    (maxResults : Nat) (keywordWeight semanticWeight : ℚ)
    (keywordK semanticK : Nat) : List SearchResult :=
  let keywordSearchResults := keywordSearch e idf query keywordK
  let semanticSearchResults := semanticSearch e query semanticK
  (fuseResults keywordSearchResults semanticSearchResults
    keywordWeight semanticWeight).take maxResults

/-- A scored result as consumed by `QueryEngine.extractSources`; the code
dereferences `result.metadata.source` unconditionally, so the metadata
object is present on this path (a result without it would be a `TypeError`
upstream, outside the claims under study). -/
structure QResult where
  content : Option String := none
  pageContent : Option String := none
  score : ℚ := 0
  metadata : ChunkMeta := {}
deriving DecidableEq, Repr

/-- A chunk record inside a source group
(`{chunkIndex: chunkIndex + 1, score, content}`). -/
structure SChunk where
  chunkIndex : Nat
  score : ℚ
  content : String
deriving DecidableEq, Repr

/-- A source group of `extractSources`. -/
structure SourceGroup where
  filename : String
  chunks : List SChunk
  fileType : String
  processedAt : Option String
deriving DecidableEq, Repr

/-- `result.metadata.source || 'Unknown'`. -/
def srcOf (r : QResult) : String := jsOrStr r.metadata.source "Unknown"

/-- The chunk record pushed for one result:
`result.content || result.pageContent || ''`, 1-based chunk index. -/
def chunkOf (r : QResult) : SChunk :=
  { chunkIndex := r.metadata.chunkIndex.getD 0 + 1, score := r.score,
    content := jsOrStr r.content (jsOrStr r.pageContent "") }

/-- One iteration of the `searchResults.forEach` of `extractSources`
over the insertion-ordered source map. -/
def addResult (acc : List SourceGroup) (r : QResult) : List SourceGroup :=
  let key := srcOf r
  if acc.any (fun g => g.filename = key) then
    acc.map (fun g => if g.filename = key then
      { g with chunks := g.chunks ++ [chunkOf r] } else g)
  else
    acc ++ [{ filename := key, chunks := [chunkOf r],
              fileType := jsOrStr r.metadata.fileType "unknown",
              processedAt := r.metadata.processedAt }]

/-- `QueryEngine.extractSources`: group results by source in first-seen
order, then sort every group's chunks ascending by `chunkIndex` (stable
JS sort with comparator `(a, b) => a.chunkIndex - b.chunkIndex`). -/
def extractSources (searchResults : List QResult) : List SourceGroup :=
  (searchResults.foldl addResult []).map
    (fun g => { g with chunks := sortByAsc (fun c => c.chunkIndex) g.chunks })

/-- Substring containment of `pat` in `s` (`String.prototype.includes`). -/
def containsChars (pat : List Char) : List Char → Bool
  | [] => pat.isPrefixOf []
  | c :: cs => pat.isPrefixOf (c :: cs) || containsChars pat cs

/-- Substring containment on strings. -/
def containsStr (s pat : String) : Bool := containsChars pat.data s.data

/-- Search region of one `.*` gap of a JS regex without the `s` flag: skip
any run of non-line-terminator characters before handing over to `f`. -/
def skipGapThen (f : List Char → Bool) : List Char → Bool
  | [] => f []
  | c :: cs => f (c :: cs) || (!(c = '\n' ∨ c = '\r') && skipGapThen f cs)

/-- Match the literal pieces `pats` of a regex `p₁.*p₂.*…` in order from
the start of `s`, with `.*` gaps between them. -/
def chainAt : List (List Char) → List Char → Bool
  | [], _ => true
  | p :: ps, s => p.isPrefixOf s && skipGapThen (fun t => chainAt ps t) (s.drop p.length)

/-- Unanchored test of an `/p₁.*p₂.*…/i` regex: try every start position
on the lower-cased subject (the patterns are written lower-case). -/
def chainAnywhere (f : List Char → Bool) : List Char → Bool
  | [] => f []
  | c :: cs => f (c :: cs) || chainAnywhere f cs

/-- Test of the regex `/p₁.*p₂.*…/i` against a string. -/
def regexChainTest (pats : List String) (s : String) : Bool :=
  chainAnywhere (chainAt (pats.map (fun p => p.data))) (lowerChars s.data)

/-- The `.trim()` model on strings. -/
def trimWsStr (s : String) : String := ⟨trimWsChars s.data⟩

/-- The `.toUpperCase()` model on strings. -/
def upperStr (s : String) : String := ⟨s.data.map Char.toUpper⟩

/-- `QuestionClassifier.isLikelyGreeting`: a battery of anchored
case-insensitive alternations tested against the trimmed question, i.e. an
exact (case-folded) match against a fixed phrase list. -/
def isLikelyGreeting (question : String) : Bool :=
  let t : String := ⟨lowerChars (trimWsStr question).data⟩
  ["hi", "hello", "hey", "你好", "再见",
   "good morning", "good afternoon", "good evening",
   "how are you", "how do you do",
   "thanks", "thank you", "谢谢"].any (fun p => t = p)

/-- `QuestionClassifier.isPersonalQuestion`: six unanchored
case-insensitive patterns with `.*` gaps. -/
def isPersonalQuestion (question : String) : Bool :=
  [["what", "your", "name"],
   ["who", "are", "you"],
   ["你叫什么名字"],
   ["你是谁"],
   ["what", "can", "you", "do"],
   ["tell", "about", "yourself"]].any (fun pats => regexChainTest pats question)

/-- The response normalization of `classifyQuestion`:
`classification.trim().toUpperCase()`. -/
def cleanClassification (s : String) : String := upperStr (trimWsStr s)

/-- `QuestionClassifier.classifyQuestion` with the classification-oracle
outcome injected: pattern stage first, then substring matching on the
normalized response (`DIRECT` checked before `SEARCH`, anything else
defaults to `SEARCH`); a throwing oracle re-runs the pattern stage and
then defaults to `SEARCH`. -/
def classifyQuestion (question : String) (oracle : Except String String) : String :=
  if isLikelyGreeting question ∨ isPersonalQuestion question then "DIRECT"
  else
    match oracle with
    | .ok resp =>
      let cleaned := cleanClassification resp
      if containsStr cleaned "DIRECT" then "DIRECT"
      else if containsStr cleaned "SEARCH" then "SEARCH"
      else "SEARCH"
    | .error _ =>
      if isLikelyGreeting question ∨ isPersonalQuestion question then "DIRECT"
      else "SEARCH"

section SortLemmas

variable {α β : Type} [LinearOrder β] (key : α → β)

theorem mem_insertByDesc {x a : α} {l : List α} :
    a ∈ insertByDesc key x l ↔ a = x ∨ a ∈ l := by
  induction l with
  | nil => simp [insertByDesc]
  | cons y ys ih =>
    by_cases h : key y ≤ key x
    · simp [insertByDesc, h]
    · simp only [insertByDesc, if_neg h, List.mem_cons, ih]
      tauto

theorem length_insertByDesc {x : α} {l : List α} :
    (insertByDesc key x l).length = l.length + 1 := by
  induction l with
  | nil => rfl
  | cons y ys ih =>
    by_cases h : key y ≤ key x
    · simp [insertByDesc, h]
    · simp [insertByDesc, h, ih]

theorem mem_sortByDesc {a : α} {l : List α} :
    a ∈ sortByDesc key l ↔ a ∈ l := by
  induction l with
  | nil => simp [sortByDesc]
  | cons x xs ih => simp [sortByDesc, mem_insertByDesc, ih]

theorem length_sortByDesc {l : List α} :
    (sortByDesc key l).length = l.length := by
  induction l with
  | nil => rfl
  | cons x xs ih => simp [sortByDesc, length_insertByDesc, ih]

theorem pairwise_insertByDesc {x : α} {l : List α}
    (h : l.Pairwise (fun a b => key b ≤ key a)) :
    (insertByDesc key x l).Pairwise (fun a b => key b ≤ key a) := by
  induction l with
  | nil => simp [insertByDesc]
  | cons y ys ih =>
    rcases List.pairwise_cons.mp h with ⟨hy, hys⟩
    by_cases hxy : key y ≤ key x
    · simp only [insertByDesc, if_pos hxy]
      refine List.pairwise_cons.mpr ⟨?_, h⟩
      intro z hz
      rcases List.mem_cons.mp hz with rfl | hz
      · exact hxy
      · exact le_trans (hy z hz) hxy
    · simp only [insertByDesc, if_neg hxy]
      refine List.pairwise_cons.mpr ⟨?_, ih hys⟩
      intro z hz
      rcases (mem_insertByDesc key).mp hz with rfl | hz
      · exact le_of_lt (lt_of_not_le hxy)
      · exact hy z hz

theorem sorted_sortByDesc {l : List α} :
    (sortByDesc key l).Pairwise (fun a b => key b ≤ key a) := by
  induction l with
  | nil => simp [sortByDesc]
  | cons x xs ih => exact pairwise_insertByDesc key ih

theorem filter_insertByDesc {x : α} {l : List α} {v : β} :
    (insertByDesc key x l).filter (fun a => key a = v) =
      (if key x = v then x :: l.filter (fun a => key a = v)
       else l.filter (fun a => key a = v)) := by
  induction l with
  | nil =>
    by_cases h : key x = v <;> simp [insertByDesc, List.filter, h]
  | cons y ys ih =>
    by_cases hxy : key y ≤ key x
    · have hins : insertByDesc key x (y :: ys) = x :: y :: ys := by
        simp only [insertByDesc, if_pos hxy]
      rw [hins]
      by_cases hx : key x = v <;> simp [List.filter_cons, hx]
    · have hins : insertByDesc key x (y :: ys) = y :: insertByDesc key x ys := by
        simp only [insertByDesc, if_neg hxy]
      rw [hins]
      by_cases hyv : key y = v
      · have hx : key x ≠ v := by
          intro hxv
          exact hxy (le_of_eq (hyv.trans hxv.symm))
        simp [List.filter_cons, hyv, ih, hx]
      · by_cases hx : key x = v <;> simp [List.filter_cons, hyv, ih, hx]

theorem filter_sortByDesc {l : List α} {v : β} :
    (sortByDesc key l).filter (fun a => key a = v) =
      l.filter (fun a => key a = v) := by
  induction l with
  | nil => rfl
  | cons x xs ih =>
    by_cases hx : key x = v
    · simp [sortByDesc, filter_insertByDesc, hx, ih, List.filter]
    · simp [sortByDesc, filter_insertByDesc, hx, ih, List.filter]

theorem sortByDesc_eq_self {l : List α}
    (h : l.Pairwise (fun a b => key b < key a)) :
    sortByDesc key l = l := by
  induction l with
  | nil => rfl
  | cons x xs ih =>
    rcases List.pairwise_cons.mp h with ⟨hx, hxs⟩
    rw [sortByDesc, ih hxs]
    cases xs with
    | nil => rfl
    | cons y ys =>
      have : key y ≤ key x := le_of_lt (hx y (List.mem_cons_self y ys))
      simp [insertByDesc, this]

theorem mem_insertByAsc {x a : α} {l : List α} :
    a ∈ insertByAsc key x l ↔ a = x ∨ a ∈ l := by
  induction l with
  | nil => simp [insertByAsc]
  | cons y ys ih =>
    by_cases h : key x ≤ key y
    · simp [insertByAsc, h]
    · simp only [insertByAsc, if_neg h, List.mem_cons, ih]
      tauto

theorem pairwise_insertByAsc {x : α} {l : List α}
    (h : l.Pairwise (fun a b => key a ≤ key b)) :
    (insertByAsc key x l).Pairwise (fun a b => key a ≤ key b) := by
  induction l with
  | nil => simp [insertByAsc]
  | cons y ys ih =>
    rcases List.pairwise_cons.mp h with ⟨hy, hys⟩
    by_cases hxy : key x ≤ key y
    · simp only [insertByAsc, if_pos hxy]
      refine List.pairwise_cons.mpr ⟨?_, h⟩
      intro z hz
      rcases List.mem_cons.mp hz with rfl | hz
      · exact hxy
      · exact le_trans hxy (hy z hz)
    · simp only [insertByAsc, if_neg hxy]
      refine List.pairwise_cons.mpr ⟨?_, ih hys⟩
      intro z hz
      rcases (mem_insertByAsc key).mp hz with rfl | hz
      · exact le_of_lt (lt_of_not_le hxy)
      · exact hy z hz

theorem sorted_sortByAsc {l : List α} :
    (sortByAsc key l).Pairwise (fun a b => key a ≤ key b) := by
  induction l with
  | nil => simp [sortByAsc]
  | cons x xs ih => exact pairwise_insertByAsc key ih

end SortLemmas

/-- Keys of the result map, in insertion order. -/
def keysOf (m : RMap) : List String := m.map Prod.fst

/-- Fused score currently recorded under a key (`0` when absent). -/
def scoreOf (m : RMap) (k : String) : ℚ :=
  match lookupE k m with
  | some e => e.fusedScore
  | none => 0

/-- Sum of the reciprocal-rank contributions collected by one `forEach`
pass starting at 0-based index `idx` for a given document id: every
occurrence at offset `j` contributes `w / (60 + (idx + j) + 1)`. -/
def rrfOccSumFrom (w : ℚ) : Nat → List String → String → ℚ
  | _, [], _ => 0
  | idx, i :: is, id =>
    (if i = id then w / (60 + idx + 1) else 0) + rrfOccSumFrom w (idx + 1) is id

/-- Total reciprocal-rank contribution of a document id over one list. -/
def rrfOccSum (w : ℚ) (ids : List String) (id : String) : ℚ :=
  rrfOccSumFrom w 0 ids id

theorem bumpEntry_fusedScore (isKw : Bool) (w : ℚ) (idx : Nat)
    (r : SearchResult) (e : FusedEntry) :
    (bumpEntry isKw w idx r e).fusedScore = e.fusedScore + w / (60 + idx + 1) := by
  cases isKw <;> rfl

theorem bumpEntry_result (isKw : Bool) (w : ℚ) (idx : Nat)
    (r : SearchResult) (e : FusedEntry) :
    (bumpEntry isKw w idx r e).result = e.result := by
  cases isKw <;> rfl

theorem newEntry_fusedScore (isKw : Bool) (w : ℚ) (idx : Nat)
    (r : SearchResult) :
    (newEntry isKw w idx r).fusedScore = w / (60 + idx + 1) := by
  cases isKw <;> rfl

theorem newEntry_result (isKw : Bool) (w : ℚ) (idx : Nat) (r : SearchResult) :
    (newEntry isKw w idx r).result = r := by
  cases isKw <;> rfl

theorem lookupE_append_single {m : RMap} {d k : String} {e : FusedEntry} :
    lookupE k (m ++ [(d, e)]) =
      match lookupE k m with
      | some x => some x
      | none => if d = k then some e else none := by
  induction m with
  | nil => simp [lookupE]
  | cons p m ih =>
    by_cases h : p.1 = k
    · simp [lookupE, h]
    · simpa [lookupE, h] using ih

theorem lookupE_map_update {m : RMap} {d k : String} {f : FusedEntry → FusedEntry} :
    lookupE k (m.map (fun p => if p.1 = d then (p.1, f p.2) else p)) =
      (if k = d then (lookupE k m).map f else lookupE k m) := by
  induction m with
  | nil => by_cases h : k = d <;> simp [lookupE, h]
  | cons p m ih =>
    obtain ⟨a, b⟩ := p
    rw [List.map_cons]
    by_cases hp : a = d
    · have h1 : (if (a, b).1 = d then ((a, b).1, f (a, b).2) else (a, b)) = (a, f b) := by
        simp [hp]
      rw [h1]
      by_cases hk : k = d
      · have hak : a = k := hp.trans hk.symm
        simp [lookupE, hak, hk]
      · have hak : ¬ a = k := fun h => hk (h.symm.trans hp)
        simp [lookupE, hak, hk, ih]
    · have h1 : (if (a, b).1 = d then ((a, b).1, f (a, b).2) else (a, b)) = (a, b) := by
        simp [hp]
      rw [h1]
      by_cases hpk : a = k
      · have hk : ¬ k = d := fun h => hp (hpk.trans h)
        simp [lookupE, hpk, hk]
      · simp [lookupE, hpk, ih]

theorem lookupE_eq_none_iff {m : RMap} {k : String} :
    lookupE k m = none ↔ k ∉ keysOf m := by
  induction m with
  | nil => simp [lookupE, keysOf]
  | cons p m ih =>
    obtain ⟨a, b⟩ := p
    by_cases h : a = k
    · simp [lookupE, h, keysOf]
    · have hk : ¬ k = a := fun hh => h hh.symm
      simp [lookupE, h, keysOf, hk, ih]

theorem keysOf_rrfStep (isKw : Bool) (w : ℚ) (idx : Nat) (m : RMap)
    (r : SearchResult) :
    keysOf (rrfStep isKw w idx m r) =
      (if (lookupE (getDocumentId r) m).isSome then keysOf m
       else keysOf m ++ [getDocumentId r]) := by
  unfold rrfStep
  cases h : lookupE (getDocumentId r) m with
  | some e =>
    simp only [h, Option.isSome_some, if_pos]
    unfold keysOf
    rw [List.map_map]
    apply List.map_congr_left
    intro p _
    by_cases hp : p.1 = getDocumentId r <;> simp [hp]
  | none => simp [h, keysOf]

theorem scoreOf_rrfStep (isKw : Bool) (w : ℚ) (idx : Nat) (m : RMap)
    (r : SearchResult) (k : String) :
    scoreOf (rrfStep isKw w idx m r) k =
      scoreOf m k + (if getDocumentId r = k then w / (60 + idx + 1) else 0) := by
  unfold rrfStep
  cases h : lookupE (getDocumentId r) m with
  | some e =>
    simp only [h]
    unfold scoreOf
    rw [lookupE_map_update]
    by_cases hk : k = getDocumentId r
    · subst hk
      rw [if_pos rfl, h]
      simp [bumpEntry_fusedScore]
    · have hne : ¬ getDocumentId r = k := fun hh => hk hh.symm
      simp [hk, hne]
  | none =>
    simp only [h]
    unfold scoreOf
    rw [lookupE_append_single]
    cases hmk : lookupE k m with
    | some e =>
      have : ¬ getDocumentId r = k := by
        intro hh
        rw [hh, hmk] at h
        exact Option.noConfusion h
      simp [this]
    | none =>
      by_cases hk : getDocumentId r = k
      · simp [hk, newEntry_fusedScore]
      · simp [hk]

theorem rrfOccSumFrom_cons (w : ℚ) (idx : Nat) (i : String) (is : List String)
    (id : String) :
    rrfOccSumFrom w idx (i :: is) id =
      (if i = id then w / (60 + idx + 1) else 0) + rrfOccSumFrom w (idx + 1) is id := rfl

theorem scoreOf_rrfFold (isKw : Bool) (w : ℚ) (rs : List SearchResult) :
    ∀ (idx : Nat) (m : RMap) (k : String),
      scoreOf (rrfFold isKw w idx m rs) k =
        scoreOf m k + rrfOccSumFrom w idx (rs.map getDocumentId) k := by
  induction rs with
  | nil => intro idx m k; simp [rrfFold, rrfOccSumFrom]
  | cons r rs ih =>
    intro idx m k
    rw [List.map_cons, rrfOccSumFrom_cons]
    show scoreOf (rrfFold isKw w (idx + 1) (rrfStep isKw w idx m r) rs) k = _
    rw [ih, scoreOf_rrfStep]
    ring

theorem entryKeys_rrfStep (isKw : Bool) (w : ℚ) (idx : Nat) (m : RMap)
    (r : SearchResult) (h : ∀ p ∈ m, getDocumentId p.2.result = p.1) :
    ∀ p ∈ rrfStep isKw w idx m r, getDocumentId p.2.result = p.1 := by
  unfold rrfStep
  cases hl : lookupE (getDocumentId r) m with
  | some e =>
    simp only [hl]
    intro p hp
    rcases List.mem_map.mp hp with ⟨q, hq, hqe⟩
    by_cases hcond : q.1 = getDocumentId r
    · rw [if_pos hcond] at hqe
      rw [← hqe]
      simpa [bumpEntry_result] using h q hq
    · rw [if_neg hcond] at hqe
      exact hqe ▸ h q hq
  | none =>
    simp only [hl]
    intro p hp
    rcases List.mem_append.mp hp with hp | hp
    · exact h p hp
    · rcases List.mem_singleton.mp hp with rfl
      simp [newEntry_result]

theorem entryKeys_rrfFold (isKw : Bool) (w : ℚ) (rs : List SearchResult) :
    ∀ (idx : Nat) (m : RMap), (∀ p ∈ m, getDocumentId p.2.result = p.1) →
      ∀ p ∈ rrfFold isKw w idx m rs, getDocumentId p.2.result = p.1 := by
  induction rs with
  | nil => intro idx m h; simpa [rrfFold] using h
  | cons r rs ih =>
    intro idx m h
    exact ih (idx + 1) _ (entryKeys_rrfStep isKw w idx m r h)

theorem nodupKeys_rrfStep (isKw : Bool) (w : ℚ) (idx : Nat) (m : RMap)
    (r : SearchResult) (h : (keysOf m).Nodup) :
    (keysOf (rrfStep isKw w idx m r)).Nodup := by
  rw [keysOf_rrfStep]
  cases hl : lookupE (getDocumentId r) m with
  | some e => simp [h]
  | none =>
    have hnot : getDocumentId r ∉ keysOf m := lookupE_eq_none_iff.mp hl
    simp only [hl, Option.isSome_none, Bool.false_eq_true, if_false]
    simp [List.nodup_append, h, hnot]

theorem nodupKeys_rrfFold (isKw : Bool) (w : ℚ) (rs : List SearchResult) :
    ∀ (idx : Nat) (m : RMap), (keysOf m).Nodup →
      (keysOf (rrfFold isKw w idx m rs)).Nodup := by
  induction rs with
  | nil => intro idx m h; simpa [rrfFold] using h
  | cons r rs ih =>
    intro idx m h
    exact ih (idx + 1) _ (nodupKeys_rrfStep isKw w idx m r h)

theorem lookupE_of_mem_nodup {m : RMap} {p : String × FusedEntry}
    (hnd : (keysOf m).Nodup) (hp : p ∈ m) : lookupE p.1 m = some p.2 := by
  induction m with
  | nil => cases hp
  | cons q m ih =>
    obtain ⟨a, b⟩ := q
    have hnd' : a ∉ List.map Prod.fst m ∧ (List.map Prod.fst m).Nodup := by
      rw [keysOf, List.map_cons, List.nodup_cons] at hnd
      exact hnd
    rcases List.mem_cons.mp hp with rfl | hp
    · simp [lookupE]
    · have hpk : ¬ a = p.1 := by
        intro hh
        exact hnd'.1 (hh ▸ List.mem_map.mpr ⟨p, hp, rfl⟩)
      have hrec : lookupE p.1 m = some p.2 := ih hnd'.2 hp
      simp [lookupE, hpk, hrec]

theorem length_rrfStep (isKw : Bool) (w : ℚ) (idx : Nat) (m : RMap)
    (r : SearchResult) : m.length ≤ (rrfStep isKw w idx m r).length := by
  unfold rrfStep
  cases hl : lookupE (getDocumentId r) m with
  | some e => simp [hl]
  | none => simp [hl]

theorem length_rrfFold (isKw : Bool) (w : ℚ) (rs : List SearchResult) :
    ∀ (idx : Nat) (m : RMap), m.length ≤ (rrfFold isKw w idx m rs).length := by
  induction rs with
  | nil => intro idx m; simp [rrfFold]
  | cons r rs ih =>
    intro idx m
    exact le_trans (length_rrfStep isKw w idx m r) (ih (idx + 1) _)

theorem keys_rrfFold_subset (isKw : Bool) (w : ℚ) (rs : List SearchResult) :
    ∀ (idx : Nat) (m : RMap) (k : String),
      k ∈ keysOf (rrfFold isKw w idx m rs) →
      k ∈ keysOf m ∨ k ∈ rs.map getDocumentId := by
  induction rs with
  | nil => intro idx m k h; exact Or.inl (by simpa [rrfFold] using h)
  | cons r rs ih =>
    intro idx m k h
    rcases ih (idx + 1) _ k h with h | h
    · rw [keysOf_rrfStep] at h
      by_cases hl : (lookupE (getDocumentId r) m).isSome
      · rw [if_pos hl] at h
        exact Or.inl h
      · rw [if_neg hl] at h
        rcases List.mem_append.mp h with h | h
        · exact Or.inl h
        · rcases List.mem_singleton.mp h with rfl
          exact Or.inr (by simp)
    · exact Or.inr (by simp [h])

/-- Master accounting lemma for `fuseResults`: the fused score of every
output entry is the sum, over every occurrence of its document id in the
keyword list and in the semantic list, of `weight / (60 + rank)` at that
occurrence's 1-based rank. -/
theorem fuseResults_score (ks ss : List SearchResult) (kw sw : ℚ)
    (r : SearchResult) (hr : r ∈ fuseResults ks ss kw sw) :
    r.score = rrfOccSum kw (ks.map getDocumentId) (getDocumentId r) +
      rrfOccSum sw (ss.map getDocumentId) (getDocumentId r) := by
  unfold fuseResults at hr
  rcases List.mem_map.mp hr with ⟨e, he, hre⟩
  rcases (mem_sortByDesc _).mp he with he
  rcases List.mem_map.mp he with ⟨p, hp, hpe⟩
  have hnd : (keysOf (rrfFold false sw 0 (rrfFold true kw 0 [] ks) ss)).Nodup :=
    nodupKeys_rrfFold false sw ss 0 _
      (nodupKeys_rrfFold true kw ks 0 [] (by simp [keysOf]))
  have hkey : getDocumentId p.2.result = p.1 :=
    entryKeys_rrfFold false sw ss 0 _
      (entryKeys_rrfFold true kw ks 0 [] (by intro q hq; cases hq)) p hp
  have hlook : lookupE p.1 (rrfFold false sw 0 (rrfFold true kw 0 [] ks) ss) = some p.2 :=
    lookupE_of_mem_nodup hnd hp
  have hscore : scoreOf (rrfFold false sw 0 (rrfFold true kw 0 [] ks) ss) p.1 =
      p.2.fusedScore := by
    unfold scoreOf
    rw [hlook]
  have hid : getDocumentId r = p.1 := by
    rw [← hre, ← hpe]
    show getDocumentId (finalizeEntry p.2) = p.1
    rw [← hkey]
    rfl
  have hsc : r.score = p.2.fusedScore := by
    rw [← hre, ← hpe]
    rfl
  rw [hsc, hid, ← hscore]
  rw [scoreOf_rrfFold, scoreOf_rrfFold]
  simp [scoreOf, lookupE, rrfOccSum]

/-- Index of the first occurrence of a string in a list (0-based). -/
def idxOfStr (a : String) : List String → Nat
  | [] => 0
  | b :: bs => if b = a then 0 else idxOfStr a bs + 1

/-- The specification's per-list RRF contribution, written from the spec's
words: a chunk appearing at 1-based rank `r` of a list contributes
`weight / (K + r)` with `K = 60`, and a list not containing it contributes
zero.  The rank is read off the list of document ids. -/
def specListContrib (w : ℚ) (ids : List String) (id : String) : ℚ :=
  if id ∈ ids then w / (60 + idxOfStr id ids + 1) else 0

theorem rrfOccSumFrom_of_not_mem (w : ℚ) (ids : List String) (id : String)
    (h : id ∉ ids) : ∀ idx, rrfOccSumFrom w idx ids id = 0 := by
  induction ids with
  | nil => intro idx; rfl
  | cons i is ih =>
    intro idx
    have hne : ¬ i = id := fun hh => h (hh ▸ List.mem_cons_self i is)
    rw [rrfOccSumFrom_cons, if_neg hne, ih (fun hh => h (List.mem_cons_of_mem i hh))]
    ring

/-- On a duplicate-free id list the occurrence sum collapses to the
specification's single-term formula. -/
theorem rrfOccSumFrom_nodup (w : ℚ) (ids : List String) (id : String)
    (hnd : ids.Nodup) :
    ∀ idx, rrfOccSumFrom w idx ids id =
      (if id ∈ ids then w / (60 + (idx + idxOfStr id ids) + 1) else 0) := by
  induction ids with
  | nil => intro idx; simp [rrfOccSumFrom]
  | cons i is ih =>
    intro idx
    rcases List.nodup_cons.mp hnd with ⟨hni, hnd'⟩
    rw [rrfOccSumFrom_cons]
    by_cases hi : i = id
    · subst hi
      rw [if_pos rfl, rrfOccSumFrom_of_not_mem w is i hni]
      simp [idxOfStr]
    · rw [if_neg hi, ih hnd' (idx + 1)]
      have hmm : (id ∈ i :: is) ↔ (id ∈ is) := by
        simp [List.mem_cons]
        intro hh
        exact absurd hh.symm hi
      by_cases hm : id ∈ is
      · rw [if_pos hm, if_pos (hmm.mpr hm)]
        have hidx : idxOfStr id (i :: is) = idxOfStr id is + 1 := by
          simp [idxOfStr, hi]
        rw [hidx]
        push_cast
        ring
      · rw [if_neg hm, if_neg (fun hh => hm (hmm.mp hh))]
        ring

theorem rrfOccSum_nodup (w : ℚ) (ids : List String) (id : String)
    (hnd : ids.Nodup) : rrfOccSum w ids id = specListContrib w ids id := by
  rw [rrfOccSum, rrfOccSumFrom_nodup w ids id hnd 0, specListContrib]
  simp

/-- Closed form of the occurrence sum when every id in the list is the
same: the pass contributes `w / (60 + idx + j + 1)` for every offset
`j < n`, i.e. `w/(60+r)` for the ranks `r = idx+1, …, idx+n`. -/
def rrfAllSum (w : ℚ) : Nat → Nat → ℚ
  | _, 0 => 0
  | idx, n + 1 => w / (60 + idx + 1) + rrfAllSum w (idx + 1) n

theorem rrfOccSumFrom_all_eq (w : ℚ) (ids : List String) (id : String)
    (h : ∀ i ∈ ids, i = id) :
    ∀ idx, rrfOccSumFrom w idx ids id = rrfAllSum w idx ids.length := by
  induction ids with
  | nil => intro idx; rfl
  | cons i is ih =>
    intro idx
    have hi : i = id := h i (List.mem_cons_self i is)
    rw [rrfOccSumFrom_cons, if_pos hi,
      ih (fun j hj => h j (List.mem_cons_of_mem i hj)) (idx + 1)]
    rfl

/-- Indexed enumeration starting at `n` (the `(result, index)` pairs of a
`forEach` pass). -/
def enumF {α : Type} : Nat → List α → List (Nat × α)
  | _, [] => []
  | n, x :: xs => (n, x) :: enumF (n + 1) xs

theorem enumF_map_snd {α β : Type} (g : α → β) (l : List α) :
    ∀ n, (enumF n l).map (fun p => g p.2) = l.map g := by
  induction l with
  | nil => intro n; rfl
  | cons x xs ih => intro n; simp [enumF, ih]

theorem enumF_fst_lt {α : Type} (l : List α) :
    ∀ n, ∀ p ∈ enumF n l, n ≤ p.1 := by
  induction l with
  | nil => intro n p hp; cases hp
  | cons x xs ih =>
    intro n p hp
    rcases List.mem_cons.mp hp with rfl | hp
    · exact le_refl n
    · exact le_trans (Nat.le_succ n) (ih (n + 1) p hp)

theorem enumF_fst_pairwise {α : Type} (l : List α) :
    ∀ n, (enumF n l).Pairwise (fun p q => p.1 < q.1) := by
  induction l with
  | nil => intro n; simp [enumF]
  | cons x xs ih =>
    intro n
    refine List.pairwise_cons.mpr ⟨?_, ih (n + 1)⟩
    intro q hq
    exact lt_of_lt_of_le (Nat.lt_succ_self n) (enumF_fst_lt xs (n + 1) q hq)

/-- When every incoming id is fresh (the duplicate-free case), the fold is
pure appending: each result seeds a new entry carrying its own rank. -/
theorem rrfFold_all_new (isKw : Bool) (w : ℚ) (rs : List SearchResult) :
    ∀ (idx : Nat) (m : RMap),
      (keysOf m ++ rs.map getDocumentId).Nodup →
      rrfFold isKw w idx m rs =
        m ++ (enumF idx rs).map (fun p => (getDocumentId p.2, newEntry isKw w p.1 p.2)) := by
  induction rs with
  | nil => intro idx m _; simp [rrfFold, enumF]
  | cons r rs ih =>
    intro idx m hnd
    have hfresh : getDocumentId r ∉ keysOf m := by
      intro hmem
      rw [List.map_cons] at hnd
      rcases List.nodup_append.mp hnd with ⟨_, _, hdisj⟩
      exact hdisj hmem (List.mem_cons_self _ _)
    have hl : lookupE (getDocumentId r) m = none := lookupE_eq_none_iff.mpr hfresh
    have hstep : rrfStep isKw w idx m r = m ++ [(getDocumentId r, newEntry isKw w idx r)] := by
      simp [rrfStep, hl]
    show rrfFold isKw w (idx + 1) (rrfStep isKw w idx m r) rs = _
    rw [hstep, ih (idx + 1) (m ++ [(getDocumentId r, newEntry isKw w idx r)]) ?hnd]
    · simp [enumF, keysOf]
    · case hnd =>
      have hkeys : keysOf (m ++ [(getDocumentId r, newEntry isKw w idx r)]) =
          keysOf m ++ [getDocumentId r] := by simp [keysOf]
      rw [hkeys]
      rw [List.map_cons, ← List.singleton_append, ← List.append_assoc] at hnd
      exact hnd

theorem getDocumentId_finalizeEntry (e : FusedEntry) :
    getDocumentId (finalizeEntry e) = getDocumentId e.result := rfl

theorem fuseResults_length_pos (ks ss : List SearchResult) (kw sw : ℚ)
    (h : ks ≠ [] ∨ ss ≠ []) : 0 < (fuseResults ks ss kw sw).length := by
  unfold fuseResults
  rw [List.length_map, length_sortByDesc, List.length_map]
  have step_one : ∀ (isKw : Bool) (w : ℚ) (idx : Nat) (m : RMap) (r : SearchResult),
      1 ≤ (rrfStep isKw w idx m r).length := by
    intro isKw w idx m r
    unfold rrfStep
    cases hl : lookupE (getDocumentId r) m with
    | some e => simp [hl]; cases m with | nil => simp [lookupE] at hl | cons p m => simp
    | none => simp [hl]
  rcases h with h | h
  · cases ks with
    | nil => exact absurd rfl h
    | cons r ks =>
      have h4 : rrfFold true kw 0 [] (r :: ks) =
          rrfFold true kw 1 (rrfStep true kw 0 [] r) ks := rfl
      rw [h4]
      have h1 : 1 ≤ (rrfStep true kw 0 [] r).length := step_one true kw 0 [] r
      have h2 : (rrfStep true kw 0 [] r).length ≤
          (rrfFold true kw 1 (rrfStep true kw 0 [] r) ks).length :=
        length_rrfFold true kw ks 1 _
      have h3 : (rrfFold true kw 1 (rrfStep true kw 0 [] r) ks).length ≤
          (rrfFold false sw 0 (rrfFold true kw 1 (rrfStep true kw 0 [] r) ks) ss).length :=
        length_rrfFold false sw ss 0 _
      omega
  · cases ss with
    | nil => exact absurd rfl h
    | cons r ss =>
      have h4 : rrfFold false sw 0 (rrfFold true kw 0 [] ks) (r :: ss) =
          rrfFold false sw 1 (rrfStep false sw 0 (rrfFold true kw 0 [] ks) r) ss := rfl
      rw [h4]
      have h1 : 1 ≤ (rrfStep false sw 0 (rrfFold true kw 0 [] ks) r).length :=
        step_one false sw 0 _ r
      have h2 : (rrfStep false sw 0 (rrfFold true kw 0 [] ks) r).length ≤
          (rrfFold false sw 1 (rrfStep false sw 0 (rrfFold true kw 0 [] ks) r) ss).length :=
        length_rrfFold false sw ss 1 _
      omega

/-- Every output entry of `fuseResults` carries a document id coming from
one of the two input lists. -/
theorem fuseResults_id_mem (ks ss : List SearchResult) (kw sw : ℚ)
    (r : SearchResult) (hr : r ∈ fuseResults ks ss kw sw) :
    getDocumentId r ∈ ks.map getDocumentId ∨ getDocumentId r ∈ ss.map getDocumentId := by
  unfold fuseResults at hr
  rcases List.mem_map.mp hr with ⟨e, he, hre⟩
  rcases (mem_sortByDesc _).mp he with he
  rcases List.mem_map.mp he with ⟨p, hp, hpe⟩
  have hkey : getDocumentId p.2.result = p.1 :=
    entryKeys_rrfFold false sw ss 0 _
      (entryKeys_rrfFold true kw ks 0 [] (by intro q hq; cases hq)) p hp
  have hid : getDocumentId r = p.1 := by
    rw [← hre, ← hpe, getDocumentId_finalizeEntry, hkey]
  have hkmem : p.1 ∈ keysOf (rrfFold false sw 0 (rrfFold true kw 0 [] ks) ss) :=
    List.mem_map.mpr ⟨p, hp, rfl⟩
  rcases keys_rrfFold_subset false sw ss 0 _ p.1 hkmem with h | h
  · rcases keys_rrfFold_subset true kw ks 0 [] p.1 h with h | h
    · simp [keysOf] at h
    · exact Or.inl (hid ▸ h)
  · exact Or.inr (hid ▸ h)

theorem nodup_all_eq_length_le_one {l : List String} {a : String}
    (hnd : l.Nodup) (hall : ∀ x ∈ l, x = a) : l.length ≤ 1 := by
  cases l with
  | nil => simp
  | cons x xs =>
    cases xs with
    | nil => simp
    | cons y ys =>
      have hx : x = a := hall x (by simp)
      have hy : y = a := hall y (by simp)
      rcases List.nodup_cons.mp hnd with ⟨hnx, _⟩
      exact absurd (by simp [hx.trans hy.symm]) hnx

/-- Relative order preservation for a duplicate-free single list fused with
weight `w = 1` against an empty second list: everything is appended in
input order with strictly decreasing fused scores `1/(60+rank)`, so the
stable sort is the identity and the output ids equal the input ids. -/
theorem fuseResults_single_nodup (ks : List SearchResult) (sw : ℚ)
    (hnd : (ks.map getDocumentId).Nodup) :
    (fuseResults ks [] 1 sw).map getDocumentId = ks.map getDocumentId := by
  have hfold : rrfFold true 1 0 [] ks =
      (enumF 0 ks).map (fun p => (getDocumentId p.2, newEntry true 1 p.1 p.2)) := by
    have h := rrfFold_all_new true 1 ks 0 [] (by simpa [keysOf] using hnd)
    simpa using h
  show ((sortByDesc (fun e => e.fusedScore)
      ((rrfFold false sw 0 (rrfFold true 1 0 [] ks) []).map (fun p => p.2))).map
      finalizeEntry).map getDocumentId = ks.map getDocumentId
  have hm2 : rrfFold false sw 0 (rrfFold true 1 0 [] ks) [] = rrfFold true 1 0 [] ks := rfl
  rw [hm2, hfold]
  have hinner : (((enumF 0 ks).map
      (fun p => (getDocumentId p.2, newEntry true 1 p.1 p.2))).map (fun p => p.2)) =
      (enumF 0 ks).map (fun p => newEntry true 1 p.1 p.2) := by
    rw [List.map_map]
    apply List.map_congr_left
    intro p _
    rfl
  rw [hinner]
  have hsorted : ((enumF 0 ks).map (fun p => newEntry true 1 p.1 p.2)).Pairwise
      (fun a b => b.fusedScore < a.fusedScore) := by
    rw [List.pairwise_map]
    refine List.Pairwise.imp ?_ (enumF_fst_pairwise ks 0)
    intro p q hpq
    rw [newEntry_fusedScore, newEntry_fusedScore]
    rw [div_lt_div_left one_pos (by positivity) (by positivity)]
    have hc : (p.1 : ℚ) < q.1 := by exact_mod_cast hpq
    linarith
  rw [sortByDesc_eq_self _ hsorted]
  rw [List.map_map, List.map_map]
  rw [← enumF_map_snd (fun r : SearchResult => getDocumentId r) ks 0]
  apply List.map_congr_left
  intro p _
  show getDocumentId (finalizeEntry (newEntry true 1 p.1 p.2)) = getDocumentId p.2
  rw [getDocumentId_finalizeEntry, newEntry_result]

/-- First occurrences of a list of keys, in first-seen order (the insertion
order of a JS `Map` built by iterating the list). -/
def dedupFirst : List String → List String
  | [] => []
  | k :: ks => k :: dedupFirst (ks.filter (fun x => x ≠ k))
termination_by l => l.length
decreasing_by
  simp_wf
  exact Nat.lt_succ_of_le (List.length_filter_le _ _)

/-- Group filenames of a source-group list, in order. -/
def keysSG (l : List SourceGroup) : List String := l.map (fun g => g.filename)

/-- First group with a given filename (`Map.prototype.get` on the source
map). -/
def findG : List SourceGroup → String → Option SourceGroup
  | [], _ => none
  | g :: gs, k => if g.filename = k then some g else findG gs k

/-- First search result whose source key is `k`. -/
def findR : List QResult → String → Option QResult
  | [], _ => none
  | r :: rs, k => if srcOf r = k then some r else findR rs k

/-- The metadata a group carries besides its chunks: filename, file type
and processing timestamp, all fixed at group creation. -/
def groupHeader (g : SourceGroup) : String × String × Option String :=
  (g.filename, g.fileType, g.processedAt)

/-- Fresh keys contributed by a result list given the keys already seen,
in first-seen order. -/
def newKeysQ : List QResult → List String → List String
  | [], _ => []
  | r :: rs, seen =>
    if srcOf r ∈ seen then newKeysQ rs seen
    else srcOf r :: newKeysQ rs (seen ++ [srcOf r])

theorem anyKey_iff (acc : List SourceGroup) (k : String) :
    (acc.any (fun g => g.filename = k)) = true ↔ k ∈ keysSG acc := by
  rw [List.any_eq_true]
  constructor
  · rintro ⟨g, hg, hgk⟩
    exact List.mem_map.mpr ⟨g, hg, by simpa using hgk⟩
  · intro hk
    rcases List.mem_map.mp hk with ⟨g, hg, hgk⟩
    exact ⟨g, hg, by simpa using hgk⟩

theorem keysSG_addResult (acc : List SourceGroup) (r : QResult) :
    keysSG (addResult acc r) =
      (if srcOf r ∈ keysSG acc then keysSG acc else keysSG acc ++ [srcOf r]) := by
  unfold addResult
  by_cases hmem : srcOf r ∈ keysSG acc
  · rw [if_pos ((anyKey_iff acc (srcOf r)).mpr hmem), if_pos hmem]
    unfold keysSG
    rw [List.map_map]
    apply List.map_congr_left
    intro g _
    by_cases hg : g.filename = srcOf r <;> simp [hg]
  · rw [if_neg (fun h => hmem ((anyKey_iff acc (srcOf r)).mp h)), if_neg hmem]
    simp [keysSG]

theorem newKeysQ_cons (r : QResult) (rs : List QResult) (seen : List String) :
    newKeysQ (r :: rs) seen =
      (if srcOf r ∈ seen then newKeysQ rs seen
       else srcOf r :: newKeysQ rs (seen ++ [srcOf r])) := rfl

theorem dedupFirst_cons (k : String) (ks : List String) :
    dedupFirst (k :: ks) = k :: dedupFirst (ks.filter (fun x => x ≠ k)) := by
  rw [dedupFirst]

theorem keysSG_foldl_addResult (rs : List QResult) :
    ∀ acc : List SourceGroup,
      keysSG (rs.foldl addResult acc) = keysSG acc ++ newKeysQ rs (keysSG acc) := by
  induction rs with
  | nil => intro acc; simp [newKeysQ]
  | cons r rs ih =>
    intro acc
    rw [List.foldl_cons, ih (addResult acc r), keysSG_addResult, newKeysQ_cons]
    by_cases hmem : srcOf r ∈ keysSG acc
    · rw [if_pos hmem, if_pos hmem]
    · rw [if_neg hmem, if_neg hmem, List.append_assoc]
      rfl

theorem newKeysQ_eq_dedupFirst (rs : List QResult) :
    ∀ seen : List String,
      newKeysQ rs seen =
        dedupFirst ((rs.map srcOf).filter (fun x => decide (x ∉ seen))) := by
  induction rs with
  | nil => intro seen; simp [newKeysQ, dedupFirst]
  | cons r rs ih =>
    intro seen
    rw [List.map_cons, List.filter_cons, newKeysQ_cons]
    by_cases hmem : srcOf r ∈ seen
    · rw [if_pos hmem,
        if_neg (show ¬(decide (srcOf r ∉ seen) = true) by simp [hmem]), ih seen]
    · rw [if_neg hmem,
        if_pos (show decide (srcOf r ∉ seen) = true by simp [hmem]),
        ih (seen ++ [srcOf r]), dedupFirst_cons]
      have hfilters :
          (((rs.map srcOf).filter (fun x => decide (x ∉ seen))).filter
            (fun x => x ≠ srcOf r)) =
          (rs.map srcOf).filter (fun x => decide (x ∉ seen ++ [srcOf r])) := by
        rw [List.filter_filter]
        apply List.filter_congr
        intro x _
        by_cases hx : x = srcOf r
        · simp [hx]
        · by_cases hs : x ∈ seen <;> simp [hx, hs]
      rw [hfilters]

theorem mem_dedupFirst : ∀ (l : List String) (x : String), x ∈ dedupFirst l → x ∈ l := by
  intro l
  induction l using dedupFirst.induct with
  | case1 =>
    intro x h
    rw [dedupFirst] at h
    cases h
  | case2 k ks ih =>
    intro x h
    rw [dedupFirst_cons] at h
    rcases List.mem_cons.mp h with rfl | h
    · exact List.mem_cons_self _ _
    · exact List.mem_cons_of_mem _ (List.mem_filter.mp (ih x h)).1

theorem nodup_dedupFirst : ∀ l : List String, (dedupFirst l).Nodup := by
  intro l
  induction l using dedupFirst.induct with
  | case1 =>
    rw [dedupFirst]
    exact List.nodup_nil
  | case2 k ks ih =>
    rw [dedupFirst_cons]
    refine List.nodup_cons.mpr ⟨?_, ih⟩
    intro hk
    have := List.mem_filter.mp (mem_dedupFirst _ k hk)
    simp at this

theorem findG_eq_none_iff {l : List SourceGroup} {k : String} :
    findG l k = none ↔ k ∉ keysSG l := by
  induction l with
  | nil => simp [findG, keysSG]
  | cons g gs ih =>
    by_cases h : g.filename = k
    · simp [findG, h, keysSG]
    · have hk : ¬ k = g.filename := fun hh => h hh.symm
      simp [findG, h, keysSG, hk, ih]

theorem findG_append_single {acc : List SourceGroup} {g0 : SourceGroup} {k : String} :
    findG (acc ++ [g0]) k =
      match findG acc k with
      | some g => some g
      | none => if g0.filename = k then some g0 else none := by
  induction acc with
  | nil => simp [findG]
  | cons g gs ih =>
    by_cases h : g.filename = k
    · simp [findG, h]
    · simpa [findG, h] using ih

theorem findG_map_headerPres (f : SourceGroup → SourceGroup)
    (hf : ∀ g, groupHeader (f g) = groupHeader g) (acc : List SourceGroup)
    (k : String) :
    (findG (acc.map f) k).map groupHeader = (findG acc k).map groupHeader := by
  induction acc with
  | nil => rfl
  | cons g gs ih =>
    have hfn : (f g).filename = g.filename := congrArg Prod.fst (hf g)
    by_cases hk : g.filename = k
    · simp [findG, hfn, hk, hf]
    · simp [findG, hfn, hk, ih]

theorem findG_of_mem_nodup {l : List SourceGroup} {g : SourceGroup}
    (hnd : (keysSG l).Nodup) (hg : g ∈ l) : findG l g.filename = some g := by
  induction l with
  | nil => cases hg
  | cons q gs ih =>
    have hnd' : q.filename ∉ List.map (fun x => x.filename) gs ∧
        (List.map (fun x => x.filename) gs).Nodup := by
      rw [keysSG, List.map_cons, List.nodup_cons] at hnd
      exact hnd
    rcases List.mem_cons.mp hg with rfl | hg
    · simp [findG]
    · have hqg : ¬ q.filename = g.filename := by
        intro hh
        exact hnd'.1 (hh ▸ List.mem_map.mpr ⟨g, hg, rfl⟩)
      have hrec : findG gs g.filename = some g := ih hnd'.2 hg
      simp [findG, hqg, hrec]

/-- Header that the fold will record under key `k`: the one already in the
accumulator if present, otherwise the one built from the first result with
source key `k`. -/
def headerOr (o : Option SourceGroup) (rs : List QResult) (k : String) :
    Option (String × String × Option String) :=
  match o with
  | some g => some (groupHeader g)
  | none =>
    (findR rs k).map
      (fun r => (k, jsOrStr r.metadata.fileType "unknown", r.metadata.processedAt))

theorem foldl_addResult_header (rs : List QResult) :
    ∀ (acc : List SourceGroup) (k : String),
      (findG (rs.foldl addResult acc) k).map groupHeader =
        headerOr (findG acc k) rs k := by
  induction rs with
  | nil =>
    intro acc k
    cases h : findG acc k with
    | some g => simp [headerOr, h]
    | none => simp [headerOr, h, findR]
  | cons r rs ih =>
    intro acc k
    rw [List.foldl_cons, ih (addResult acc r) k]
    unfold addResult
    by_cases hmem : srcOf r ∈ keysSG acc
    · rw [if_pos ((anyKey_iff acc (srcOf r)).mpr hmem)]
      have hpres := findG_map_headerPres
        (fun g => if g.filename = srcOf r then { g with chunks := g.chunks ++ [chunkOf r] } else g)
        (by
          intro g
          by_cases hg : g.filename = srcOf r <;> simp [groupHeader, hg])
        acc k
      cases hacc : findG acc k with
      | some g =>
        rw [hacc] at hpres
        cases hacc' : findG (acc.map _) k with
        | some g' =>
          rw [hacc'] at hpres
          simp at hpres
          simp [headerOr, hacc', hacc, hpres]
        | none =>
          rw [hacc'] at hpres
          simp at hpres
      | none =>
        rw [hacc] at hpres
        have hnone : findG (acc.map (fun g =>
            if g.filename = srcOf r then { g with chunks := g.chunks ++ [chunkOf r] } else g)) k = none := by
          cases hacc' : findG (acc.map _) k with
          | none => rfl
          | some g' => rw [hacc'] at hpres; simp at hpres
        rw [hnone]
        have hrk : ¬ srcOf r = k := by
          intro hh
          exact (findG_eq_none_iff.mp hacc) (hh ▸ hmem)
        simp [headerOr, findR, hrk]
    · rw [if_neg (fun h => hmem ((anyKey_iff acc (srcOf r)).mp h))]
      rw [findG_append_single]
      cases hacc : findG acc k with
      | some g => simp [headerOr]
      | none =>
        by_cases hrk : srcOf r = k
        · simp only [hrk, if_pos rfl]
          simp [headerOr, findR, hrk, groupHeader]
        · simp only [hrk, if_neg hrk]
          simp [headerOr, findR, hrk]

theorem getD_map_lt {α β : Type} (f : α → β) (dA : α) (dB : β) :
    ∀ (l : List α) (i : Nat), i < l.length → (l.map f).getD i dB = f (l.getD i dA) := by
  intro l
  induction l with
  | nil => intro i hi; cases hi
  | cons x xs ih =>
    intro i hi
    cases i with
    | zero => rfl
    | succ j => exact ih j (by simpa using hi)

theorem docScore_nil_tokens (idf : String → ℚ) (terms : List String) :
    docScore idf terms [] = 0 := by
  have h : ∀ acc : ℚ, terms.foldl (fun acc t => acc + tfidfScore idf t []) acc = acc := by
    induction terms with
    | nil => intro acc; rfl
    | cons t ts ih =>
      intro acc
      rw [List.foldl_cons]
      have ht : tfidfScore idf t [] = 0 := by
        simp [tfidfScore]
      rw [ht, add_zero, ih acc]
  exact h 0

theorem candidateAt_pos {e : HybridEngine} {idf : String → ℚ}
    {terms : List String} {i : Nat} {r : SearchResult}
    (h : candidateAt e idf terms i = some r) :
    0 < r.score ∧ r.score = docScore idf terms (e.tfidfDocs.getD i []) := by
  unfold candidateAt at h
  by_cases hs : 0 < docScore idf terms (e.tfidfDocs.getD i [])
  · rw [if_pos hs] at h
    cases h
    exact ⟨hs, rfl⟩
  · rw [if_neg hs] at h
    cases h

/-- Every keyword search hit for an engine built from a corpus is the
candidate record of some corpus position, hence has a strictly positive
summed TF-IDF score. -/
theorem keywordSearch_buildIndex_mem (e0 : HybridEngine) (docs : List SrcDoc)
    (idf : String → ℚ) (q : String) (k : Nat) (r : SearchResult)
    (hr : r ∈ keywordSearch (buildIndex e0 docs) idf q k) :
    0 < r.score ∧ ∃ i, i < docs.length ∧
      candidateAt (buildIndex e0 docs) idf (tokenize (preprocessText (.str q))) i = some r := by
  unfold keywordSearch at hr
  rw [if_neg (by simp [buildIndex])] at hr
  by_cases hterms : tokenize (preprocessText (.str q)) = []
  · rw [if_pos hterms] at hr
    cases hr
  · rw [if_neg hterms] at hr
    have hr2 : r ∈ sortByDesc (fun r => r.score)
        (keywordCandidates (buildIndex e0 docs) idf (tokenize (preprocessText (.str q)))) :=
      List.take_subset k _ hr
    have hr3 : r ∈ keywordCandidates (buildIndex e0 docs) idf
        (tokenize (preprocessText (.str q))) := (mem_sortByDesc _).mp hr2
    unfold keywordCandidates at hr3
    rcases List.mem_filterMap.mp hr3 with ⟨i, hi, hci⟩
    have hlen : (buildIndex e0 docs).documents.length = docs.length := by
      simp [buildIndex]
    refine ⟨(candidateAt_pos hci).1, i, ?_, hci⟩
    rw [← hlen]
    exact List.mem_range.mp hi

/-- A corpus document whose two content slots are each empty, missing or a
non-string value (the degenerate shapes of the claim). -/
def contentDegenerate (d : SrcDoc) : Prop :=
  (d.pageContent = .missing ∨ d.pageContent = .str "" ∨ d.pageContent = .nonString) ∧
  (d.content = .missing ∨ d.content = .str "" ∨ d.content = .nonString)

theorem tokenize_degenerate {d : SrcDoc} (hdeg : contentDegenerate d) :
    tokenize (preprocessText (docContent d)) = [] := by
  obtain ⟨hp, hc⟩ := hdeg
  have hdc : docContent d = .nonString ∨ docContent d = .str "" := by
    unfold docContent jsOrJs
    rcases hp with hp | hp | hp <;> rcases hc with hc | hc | hc <;>
      rw [hp, hc] <;> simp [JsStr.truthy]
  rcases hdc with hdc | hdc <;> rw [hdc] <;> rfl

/-- A search result with no usable identity metadata: the metadata object
is absent, or present with neither `source` nor `chunkIndex`. -/
def noIdMeta (r : SearchResult) : Prop :=
  r.metadata = none ∨
    (∃ m, r.metadata = some m ∧ m.source = none ∧ m.chunkIndex = none)

theorem getDocumentId_noIdMeta {r : SearchResult} (h : noIdMeta r) :
    getDocumentId r = "unknown_0" := by
  rcases h with h | ⟨m, hm, hs, hc⟩
  · simp [getDocumentId, h, jsOrStr]
    rfl
  · simp [getDocumentId, hm, hs, hc, jsOrStr]
    rfl

/-- Constant idf weight used to instantiate the abstract tf–idf statistic
in concrete witnesses. -/
def idf1 : String → ℚ := fun _ => 1

theorem toString_nat_zero : toString (0 : Nat) = "0" := rfl

/-- Metadata of chunk 0 of document `docA`. -/
def metaA : ChunkMeta := { source := some "docA", chunkIndex := some 0 }

/-- Metadata of chunk 0 of document `docB`. -/
def metaB : ChunkMeta := { source := some "docB", chunkIndex := some 0 }

/-- Keyword hit on `(docA, 0)` (rank 1 of the keyword list). -/
def rKdocA : SearchResult :=
  { content := .str "a", metadata := some metaA, score := 2,
    searchType := some "keyword" }

/-- Keyword hit on `(docB, 0)` (rank 2 of the keyword list). -/
def rKdocB : SearchResult :=
  { content := .str "b", metadata := some metaB, score := 1,
    searchType := some "keyword" }

/-- Semantic hit on `(docB, 0)` (rank 1 of the semantic list). -/
def rSdocB : SearchResult :=
  { content := .str "b", metadata := some metaB, score := 9/10,
    searchType := some "semantic" }

/-- Semantic hit on `(docA, 0)` (rank 2 of the semantic list). -/
def rSdocA : SearchResult :=
  { content := .str "a", metadata := some metaA, score := 8/10,
    searchType := some "semantic" }

theorem getDocumentId_metaA (c : JsStr) (sc : ℚ) (st : Option String)
    (kr : Option Nat) (ksc : Option ℚ) (sr : Option Nat) (ssc : Option ℚ) :
    getDocumentId ⟨c, some metaA, sc, st, kr, ksc, sr, ssc⟩ = "docA_0" := by
  simp [getDocumentId, metaA, jsOrStr, toString_nat_zero]

theorem getDocumentId_metaB (c : JsStr) (sc : ℚ) (st : Option String)
    (kr : Option Nat) (ksc : Option ℚ) (sr : Option Nat) (ssc : Option ℚ) :
    getDocumentId ⟨c, some metaB, sc, st, kr, ksc, sr, ssc⟩ = "docB_0" := by
  simp [getDocumentId, metaB, jsOrStr, toString_nat_zero]

theorem ne_docA_docB : ("docA_0" : String) ≠ "docB_0" := by decide

theorem ne_docB_docA : ("docB_0" : String) ≠ "docA_0" := by decide

/-- C1, counterexample to the quoted example: fusing keyword list
`[(docA,0), (docB,0)]` with semantic list `[(docB,0), (docA,0)]` under
weights `(0.3, 0.7)` gives `(docB,0)` the fused score `0.3/62 + 0.7/61`
(its keyword rank is 2, not 1), which differs from the claimed
`0.3/61 + 0.7/61`; `(docB,0)` does rank first. -/
theorem fuse_example_docB_score_differs :
    ((fuseResults [rKdocA, rKdocB] [rSdocB, rSdocA] (3/10) (7/10)).map
        (fun r => (getDocumentId r, r.score))) =
      [("docB_0", 3/10/62 + 7/10/61), ("docA_0", 3/10/61 + 7/10/62)] ∧
    ((3:ℚ)/10/62 + 7/10/61) ≠ (3/10/61 + 7/10/61) := by
  constructor
  · norm_num [fuseResults, rrfFold, rrfStep, lookupE, bumpEntry, newEntry,
      finalizeEntry, sortByDesc, insertByDesc, getDocumentId_metaA,
      getDocumentId_metaB, ne_docA_docB, ne_docB_docA,
      rKdocA, rKdocB, rSdocA, rSdocB]
  · norm_num

/-- C1 (amended): for duplicate-free ranked lists, the fused score of every
output chunk of `fuseResults` is the sum over the lists containing its
document id of `weight/(60 + r)` at its 1-based rank `r` (zero from lists
missing it), exactly the spec formula `specListContrib`; and on the quoted
example the scores are `0.3/62 + 0.7/61` for `(docB,0)` (keyword rank 2)
and `0.3/61 + 0.7/62` for `(docA,0)`, with `(docB,0)` ranked first. -/
theorem fuse_spec_formula_and_example :
    (∀ (ks ss : List SearchResult) (kw sw : ℚ),
      (ks.map getDocumentId).Nodup → (ss.map getDocumentId).Nodup →
      ∀ r ∈ fuseResults ks ss kw sw,
        r.score = specListContrib kw (ks.map getDocumentId) (getDocumentId r) +
          specListContrib sw (ss.map getDocumentId) (getDocumentId r)) ∧
    ((fuseResults [rKdocA, rKdocB] [rSdocB, rSdocA] (3/10) (7/10)).map
        (fun r => (getDocumentId r, r.score))) =
      [("docB_0", 3/10/62 + 7/10/61), ("docA_0", 3/10/61 + 7/10/62)] := by
  constructor
  · intro ks ss kw sw h1 h2 r hr
    rw [fuseResults_score ks ss kw sw r hr, rrfOccSum_nodup _ _ _ h1,
      rrfOccSum_nodup _ _ _ h2]
  · norm_num [fuseResults, rrfFold, rrfStep, lookupE, bumpEntry, newEntry,
      finalizeEntry, sortByDesc, insertByDesc, getDocumentId_metaA,
      getDocumentId_metaB, ne_docA_docB, ne_docB_docA,
      rKdocA, rKdocB, rSdocA, rSdocB]

/-- The fused entry produced for `(docB, 0)` in the worked example. -/
def exFusedB : SearchResult :=
  { content := .str "b", metadata := some metaB, score := 617/37820,
    searchType := some "hybrid", keywordRank := some 2, keywordScore := some 1,
    semanticRank := some 1, semanticScore := some (9/10) }

/-- C1 witness: the spec formula evaluated on the worked example's
`(docB, 0)` output entry. -/
theorem fuse_spec_formula_witness :
    exFusedB.score =
      specListContrib (3/10) ([rKdocA, rKdocB].map getDocumentId) (getDocumentId exFusedB) +
      specListContrib (7/10) ([rSdocB, rSdocA].map getDocumentId) (getDocumentId exFusedB) :=
  fuse_spec_formula_and_example.1 [rKdocA, rKdocB] [rSdocB, rSdocA] (3/10) (7/10)
    (by decide) (by decide) exFusedB
    (by norm_num [fuseResults, rrfFold, rrfStep, lookupE, bumpEntry, newEntry,
      finalizeEntry, sortByDesc, insertByDesc, getDocumentId_metaA,
      getDocumentId_metaB, ne_docA_docB, ne_docB_docA,
      rKdocA, rKdocB, rSdocA, rSdocB, exFusedB])

/-- C2, counterexample: a list containing the same logical chunk twice
(`(docA,0)` at ranks 1 and 2) fused with weight 1 yields the single output
entry the score `1/61 + 1/62` — both occurrences contribute — which
differs from the first-occurrence-only score `1/61` the claim demands. -/
theorem fuse_duplicate_double_count :
    ((fuseResults [rKdocA, rKdocA] [] 1 0).map (fun r => r.score)) = [1/61 + 1/62] ∧
    ((1:ℚ)/61 + 1/62) ≠ 1/61 := by
  constructor
  · norm_num [fuseResults, rrfFold, rrfStep, lookupE, bumpEntry, newEntry,
      finalizeEntry, sortByDesc, insertByDesc, getDocumentId_metaA, rKdocA]
  · norm_num

/-- C2 (amended): `fuseResults` accumulates one `weight/(60 + r)` term for
every occurrence of a chunk's document id, including later duplicates
inside the same list (which also overwrite the recorded rank); duplicates
are merged into one entry but their contributions all add up. -/
theorem fuse_duplicates_accumulate (ks ss : List SearchResult) (kw sw : ℚ)
    (r : SearchResult) (hr : r ∈ fuseResults ks ss kw sw) :
    r.score = rrfOccSum kw (ks.map getDocumentId) (getDocumentId r) +
      rrfOccSum sw (ss.map getDocumentId) (getDocumentId r) :=
  fuseResults_score ks ss kw sw r hr

/-- The single fused entry of the duplicate example. -/
def exDupOut : SearchResult :=
  { content := .str "a", metadata := some metaA, score := 123/3782,
    searchType := some "hybrid", keywordRank := some 2, keywordScore := some 2,
    semanticRank := none, semanticScore := none }

/-- C2 witness: the occurrence-sum law evaluated on the duplicate
example. -/
theorem fuse_duplicates_accumulate_witness :
    exDupOut.score =
      rrfOccSum 1 ([rKdocA, rKdocA].map getDocumentId) (getDocumentId exDupOut) +
      rrfOccSum 0 (([] : List SearchResult).map getDocumentId) (getDocumentId exDupOut) :=
  fuse_duplicates_accumulate [rKdocA, rKdocA] [] 1 0 exDupOut
    (by norm_num [fuseResults, rrfFold, rrfStep, lookupE, bumpEntry, newEntry,
      finalizeEntry, sortByDesc, insertByDesc, getDocumentId_metaA, rKdocA, exDupOut])

/-- C7, counterexample: the single list `[(docA,0), (docB,0), (docB,0)]`
fused with weight 1 against an empty list does not preserve the input's
relative order: the duplicated `(docB,0)` accumulates
`1/62 + 1/63 > 1/61` and overtakes `(docA,0)`. -/
theorem fusion_identity_order_flip :
    ((fuseResults [rKdocA, rKdocB, rKdocB] [] 1 0).map getDocumentId) =
      ["docB_0", "docA_0"] ∧
    ([rKdocA, rKdocB, rKdocB].map getDocumentId) = ["docA_0", "docB_0", "docB_0"] := by
  constructor
  · norm_num [fuseResults, rrfFold, rrfStep, lookupE, bumpEntry, newEntry,
      finalizeEntry, sortByDesc, insertByDesc, getDocumentId_metaA,
      getDocumentId_metaB, ne_docA_docB, ne_docB_docA, rKdocA, rKdocB]
  · decide

/-- C7 (amended): for a single ranked list with pairwise-distinct document
ids, fused with weight 1.0 against an empty second list, the fused output
lists exactly the input's document ids in the input's order — the fused
score `1/(60+r)` is strictly decreasing in the rank `r`, so the stable
sort leaves the first-encounter order unchanged. -/
theorem fusion_identity_nodup (ks : List SearchResult) (sw : ℚ)
    (hnd : (ks.map getDocumentId).Nodup) :
    (fuseResults ks [] 1 sw).map getDocumentId = ks.map getDocumentId :=
  fuseResults_single_nodup ks sw hnd

/-- C7 witness: identity fusion on the two-element duplicate-free list. -/
theorem fusion_identity_nodup_witness :
    (fuseResults [rKdocA, rKdocB] [] 1 0).map getDocumentId =
      [rKdocA, rKdocB].map getDocumentId :=
  fusion_identity_nodup [rKdocA, rKdocB] 0 (by decide)

/-- An engine whose coordinator is UNINDEXED (`buildIndex` never ran)
while the injected vector store holds a previously persisted corpus. -/
def coldStoreEngine : HybridEngine :=
  { isIndexed := false,
    vectorStore :=
      { isInitialized := true, documentsCount := 1,
        oracle := fun _ _ => .ok [({ pageContent := "stale", metadata := metaA }, 1/2)] } }

theorem metaA_mtype : metaA.mtype = none := rfl

/-- C3, counterexample: with the coordinator UNINDEXED but the vector
store non-empty (a persisted store loaded before any `buildIndex`),
`semanticSearch` and `hybridSearch` return non-empty results —
`semanticSearch` never consults the `isIndexed` flag. -/
theorem unindexed_semantic_nonempty :
    coldStoreEngine.isIndexed = false ∧
    semanticSearch coldStoreEngine "query" 4 ≠ [] ∧
    hybridSearch coldStoreEngine idf1 "query" 4 (3/10) (7/10) 10 10 ≠ [] := by
  refine ⟨rfl, ?_, ?_⟩
  · norm_num [semanticSearch, VectorStore.similaritySearch, coldStoreEngine,
      metaA_mtype]
    decide
  · norm_num [hybridSearch, keywordSearch, semanticSearch,
      VectorStore.similaritySearch, coldStoreEngine, metaA_mtype, fuseResults,
      rrfFold, rrfStep, lookupE, newEntry, finalizeEntry, sortByDesc,
      insertByDesc, getDocumentId_metaA]

/-- C3 (amended): while UNINDEXED, `keywordSearch` returns the empty list;
and if in addition the underlying vector store is uninitialized or holds
zero documents (the cold/empty knowledge base of the spec), then
`semanticSearch` and `hybridSearch` also return the empty list.  All three
are total functions here: the only fallible call, the semantic oracle, is
caught inside `semanticSearch`. -/
theorem unindexed_cold_engine_empty (e : HybridEngine) (idf : String → ℚ)
    (q : String) (k mr kk sk : Nat) (kw sw : ℚ) (hun : e.isIndexed = false) :
    keywordSearch e idf q k = [] ∧
    ((e.vectorStore.isInitialized = false ∨ e.vectorStore.documentsCount = 0) →
      semanticSearch e q k = [] ∧ hybridSearch e idf q mr kw sw kk sk = []) := by
  have hks : ∀ kk', keywordSearch e idf q kk' = [] := by
    intro kk'
    simp [keywordSearch, hun]
  refine ⟨hks k, ?_⟩
  intro hcold
  have hss : ∀ sk', semanticSearch e q sk' = [] := by
    intro sk'
    unfold semanticSearch VectorStore.similaritySearch
    rcases hcold with hc | hc
    · rw [if_pos hc]
    · by_cases hinit : e.vectorStore.isInitialized = false
      · rw [if_pos hinit]
      · rw [if_neg hinit, if_pos hc]
        rfl
  refine ⟨hss k, ?_⟩
  show (fuseResults (keywordSearch e idf q kk) (semanticSearch e q sk) kw sw).take mr = []
  rw [hks kk, hss sk]
  simp [fuseResults, rrfFold, sortByDesc]

/-- C3 witness: on a freshly constructed engine (default state: UNINDEXED,
uninitialized store) all three searches return the empty list. -/
theorem unindexed_cold_engine_empty_witness :
    keywordSearch ({} : HybridEngine) idf1 "q" 4 = [] ∧
    semanticSearch ({} : HybridEngine) "q" 4 = [] ∧
    hybridSearch ({} : HybridEngine) idf1 "q" 4 (3/10) (7/10) 10 10 = [] :=
  ⟨(unindexed_cold_engine_empty {} idf1 "q" 4 4 10 10 (3/10) (7/10) rfl).1,
   ((unindexed_cold_engine_empty {} idf1 "q" 4 4 10 10 (3/10) (7/10) rfl).2
      (Or.inl rfl)).1,
   ((unindexed_cold_engine_empty {} idf1 "q" 4 4 10 10 (3/10) (7/10) rfl).2
      (Or.inl rfl)).2⟩

/-- C4: when the semantic oracle call throws, `semanticSearch` swallows the
error and returns the empty list, and `hybridSearch` returns exactly the
fusion of the keyword path with the empty semantic list — non-empty
whenever the keyword search matched (and at least one result is
requested). -/
theorem semantic_failure_keyword_path (e : HybridEngine) (idf : String → ℚ)
    (q : String) (mr kk sk : Nat) (kw sw : ℚ)
    (herr : ∃ msg, e.vectorStore.similaritySearch q sk = .error msg) :
    semanticSearch e q sk = [] ∧
    hybridSearch e idf q mr kw sw kk sk =
      (fuseResults (keywordSearch e idf q kk) [] kw sw).take mr ∧
    (keywordSearch e idf q kk ≠ [] → 1 ≤ mr →
      hybridSearch e idf q mr kw sw kk sk ≠ []) := by
  obtain ⟨msg, hmsg⟩ := herr
  have hss : semanticSearch e q sk = [] := by
    unfold semanticSearch
    rw [hmsg]
  have hhyb : hybridSearch e idf q mr kw sw kk sk =
      (fuseResults (keywordSearch e idf q kk) [] kw sw).take mr := by
    unfold hybridSearch
    rw [hss]
  refine ⟨hss, hhyb, ?_⟩
  intro hne hmr
  rw [hhyb]
  have hpos : 0 < (fuseResults (keywordSearch e idf q kk) [] kw sw).length :=
    fuseResults_length_pos _ _ _ _ (Or.inl hne)
  intro htake
  have hlen := congrArg List.length htake
  rw [List.length_take] at hlen
  simp only [List.length_nil] at hlen
  rcases Nat.min_eq_zero_iff.mp hlen with h | h
  · omega
  · omega

/-- An engine indexed over a one-document corpus whose semantic oracle
always throws. -/
def failingOracleEngine : HybridEngine :=
  buildIndex
    { vectorStore :=
        { isInitialized := true, documentsCount := 1,
          oracle := fun _ _ => .error "sim fail" } }
    [{ content := .str "apple pie" }]

theorem tok_apple : tokenize (preprocessText (.str "apple")) = ["apple"] := by decide

theorem tok_applepie : tokenize (preprocessText (.str "apple pie")) = ["apple", "pie"] := by
  decide

theorem count_apple : List.count "apple" ["apple", "pie"] = 1 := by decide

/-- C4 witness: on the failing-oracle engine the semantic path degrades to
empty, the hybrid output is the keyword-only fusion, and — the keyword
search having matched — the hybrid result is non-empty. -/
theorem semantic_failure_keyword_path_witness :
    semanticSearch failingOracleEngine "apple" 10 = [] ∧
    hybridSearch failingOracleEngine idf1 "apple" 4 (3/10) (7/10) 10 10 =
      (fuseResults (keywordSearch failingOracleEngine idf1 "apple" 10) []
        (3/10) (7/10)).take 4 ∧
    hybridSearch failingOracleEngine idf1 "apple" 4 (3/10) (7/10) 10 10 ≠ [] :=
  ⟨(semantic_failure_keyword_path failingOracleEngine idf1 "apple" 4 10 10
      (3/10) (7/10) ⟨"Search failed: sim fail", rfl⟩).1,
   (semantic_failure_keyword_path failingOracleEngine idf1 "apple" 4 10 10
      (3/10) (7/10) ⟨"Search failed: sim fail", rfl⟩).2.1,
   (semantic_failure_keyword_path failingOracleEngine idf1 "apple" 4 10 10
      (3/10) (7/10) ⟨"Search failed: sim fail", rfl⟩).2.2
     (by
       norm_num [keywordSearch, failingOracleEngine, buildIndex, tok_apple,
         tok_applepie, keywordCandidates, candidateAt, docScore, tfidfScore,
         idf1, count_apple, sortByDesc, insertByDesc, List.range_succ,
         List.range_zero, List.filterMap_cons, List.filterMap_nil, docContent,
         jsOrJs, JsStr.truthy])
     (by norm_num)⟩

/-- C5: when the pattern stage does not match the question, a
classification-oracle response that after trimming and upper-casing
contains neither `DIRECT` nor `SEARCH` yields `SEARCH`, and a throwing
oracle also yields `SEARCH` — never `DIRECT`. -/
theorem classifier_defaults_to_search (q resp msg : String)
    (hg : isLikelyGreeting q = false) (hp : isPersonalQuestion q = false)
    (hd : containsStr (cleanClassification resp) "DIRECT" = false)
    (hs : containsStr (cleanClassification resp) "SEARCH" = false) :
    classifyQuestion q (.ok resp) = "SEARCH" ∧
    classifyQuestion q (.error msg) = "SEARCH" := by
  constructor <;> simp [classifyQuestion, hg, hp, hd, hs]

/-- C5 witness: a document-referencing question the pattern stage ignores,
with an unrecognizable response and with a throwing oracle. -/
theorem classifier_defaults_to_search_witness :
    classifyQuestion "What does the uploaded report say about revenue?"
      (.ok "I cannot classify this") = "SEARCH" ∧
    classifyQuestion "What does the uploaded report say about revenue?"
      (.error "boom") = "SEARCH" :=
  classifier_defaults_to_search "What does the uploaded report say about revenue?"
    "I cannot classify this" "boom" (by decide) (by decide) (by decide) (by decide)

/-- C9: a chunk whose content slots are empty, missing or non-string is
preprocessed to the empty token list by `buildIndex`, its summed TF-IDF
score is `0` for every query-term list, it never enters the keyword
candidate array, and every result `keywordSearch` does return has a
strictly positive score.  `buildIndex` and `keywordSearch` are total
functions of the embedding: the degenerate chunk cannot make them throw. -/
theorem degenerate_content_zero (e0 : HybridEngine) (docs : List SrcDoc)
    (idf : String → ℚ) (q : String) (k i : Nat) (hi : i < docs.length)
    (hdeg : contentDegenerate (docs.getD i {})) :
    (buildIndex e0 docs).tfidfDocs.getD i [] = [] ∧
    (∀ terms, docScore idf terms ((buildIndex e0 docs).tfidfDocs.getD i []) = 0) ∧
    (∀ terms, candidateAt (buildIndex e0 docs) idf terms i = none) ∧
    (∀ r ∈ keywordSearch (buildIndex e0 docs) idf q k, 0 < r.score) := by
  have htok : (buildIndex e0 docs).tfidfDocs.getD i [] = [] := by
    show ((docs.map (fun d => tokenize (preprocessText (docContent d)))).getD i []) = []
    rw [getD_map_lt _ ({} : SrcDoc) [] docs i hi]
    exact tokenize_degenerate hdeg
  refine ⟨htok, ?_, ?_, ?_⟩
  · intro terms
    rw [htok]
    exact docScore_nil_tokens idf terms
  · intro terms
    unfold candidateAt
    rw [htok]
    simp [docScore_nil_tokens]
  · intro r hr
    exact (keywordSearch_buildIndex_mem e0 docs idf q k r hr).1

/-- Corpus with one normal chunk and one degenerate chunk (missing
`pageContent`, empty-string `content`). -/
def degenDocs : List SrcDoc :=
  [{ content := .str "apples are red", metadata := some metaA },
   { pageContent := .missing, content := .str "" }]

/-- C9 witness: the degenerate chunk of `degenDocs` tokenizes to nothing,
scores `0` on the query terms and produces no candidate. -/
theorem degenerate_content_zero_witness :
    (buildIndex {} degenDocs).tfidfDocs.getD 1 [] = [] ∧
    docScore idf1 ["apples"] ((buildIndex {} degenDocs).tfidfDocs.getD 1 []) = 0 ∧
    candidateAt (buildIndex {} degenDocs) idf1 ["apples"] 1 = none :=
  ⟨(degenerate_content_zero {} degenDocs idf1 "apples" 5 1 (by decide)
      ⟨Or.inl rfl, Or.inr (Or.inl rfl)⟩).1,
   (degenerate_content_zero {} degenDocs idf1 "apples" 5 1 (by decide)
      ⟨Or.inl rfl, Or.inr (Or.inl rfl)⟩).2.1 ["apples"],
   (degenerate_content_zero {} degenDocs idf1 "apples" 5 1 (by decide)
      ⟨Or.inl rfl, Or.inr (Or.inl rfl)⟩).2.2.1 ["apples"]⟩

/-- C10: results lacking identity metadata all share the document id
`unknown_0`, so fusing any two lists made of such results yields exactly
one output entry whose fused score sums every occurrence's contribution
`weight/(60 + rank)` over both lists. -/
theorem metadataless_results_merge (ks ss : List SearchResult) (kw sw : ℚ)
    (hks : ∀ r ∈ ks, noIdMeta r) (hss : ∀ r ∈ ss, noIdMeta r)
    (hne : ks ≠ [] ∨ ss ≠ []) :
    (∀ r ∈ ks ++ ss, getDocumentId r = "unknown_0") ∧
    (fuseResults ks ss kw sw).length = 1 ∧
    (∀ r ∈ fuseResults ks ss kw sw,
      r.score = rrfAllSum kw 0 ks.length + rrfAllSum sw 0 ss.length) := by
  have hidks : ∀ x ∈ ks.map getDocumentId, x = "unknown_0" := by
    intro x hx
    rcases List.mem_map.mp hx with ⟨r, hr, rfl⟩
    exact getDocumentId_noIdMeta (hks r hr)
  have hidss : ∀ x ∈ ss.map getDocumentId, x = "unknown_0" := by
    intro x hx
    rcases List.mem_map.mp hx with ⟨r, hr, rfl⟩
    exact getDocumentId_noIdMeta (hss r hr)
  have hlen : (fuseResults ks ss kw sw).length =
      (keysOf (rrfFold false sw 0 (rrfFold true kw 0 [] ks) ss)).length := by
    simp [fuseResults, keysOf, length_sortByDesc]
  refine ⟨?_, ?_, ?_⟩
  · intro r hr
    rcases List.mem_append.mp hr with h | h
    · exact getDocumentId_noIdMeta (hks r h)
    · exact getDocumentId_noIdMeta (hss r h)
  · have hnd := nodupKeys_rrfFold false sw ss 0 _
      (nodupKeys_rrfFold true kw ks 0 [] (by simp [keysOf]))
    have hall : ∀ x ∈ keysOf (rrfFold false sw 0 (rrfFold true kw 0 [] ks) ss),
        x = "unknown_0" := by
      intro x hx
      rcases keys_rrfFold_subset false sw ss 0 _ x hx with h | h
      · rcases keys_rrfFold_subset true kw ks 0 [] x h with h | h
        · simp [keysOf] at h
        · exact hidks x h
      · exact hidss x h
    have hle := nodup_all_eq_length_le_one hnd hall
    have hpos := fuseResults_length_pos ks ss kw sw hne
    rw [hlen] at hpos ⊢
    omega
  · intro r hr
    rw [fuseResults_score ks ss kw sw r hr]
    have hid : getDocumentId r = "unknown_0" := by
      rcases fuseResults_id_mem ks ss kw sw r hr with h | h
      · exact hidks _ h
      · exact hidss _ h
    rw [hid, rrfOccSum, rrfOccSum,
      rrfOccSumFrom_all_eq kw _ _ hidks 0,
      rrfOccSumFrom_all_eq sw _ _ hidss 0,
      List.length_map, List.length_map]

/-- A result with no metadata object at all. -/
def rNoMeta : SearchResult := { content := .str "x", score := 5 }

/-- A result whose metadata lacks both `source` and `chunkIndex`. -/
def rEmptyMeta : SearchResult :=
  { content := .str "y", metadata := some {}, score := 3 }

/-- C10 witness: one metadata-less result per list fuses into a single
entry, and both share the id `unknown_0`. -/
theorem metadataless_results_merge_witness :
    (fuseResults [rNoMeta] [rEmptyMeta] 1 1).length = 1 ∧
    getDocumentId rNoMeta = "unknown_0" :=
  ⟨(metadataless_results_merge [rNoMeta] [rEmptyMeta] 1 1
      (by intro r hr; rw [List.mem_singleton] at hr; subst hr; exact Or.inl rfl)
      (by intro r hr; rw [List.mem_singleton] at hr; subst hr
          exact Or.inr ⟨{}, rfl, rfl, rfl⟩)
      (Or.inl (by simp))).2.1,
   (metadataless_results_merge [rNoMeta] [rEmptyMeta] 1 1
      (by intro r hr; rw [List.mem_singleton] at hr; subst hr; exact Or.inl rfl)
      (by intro r hr; rw [List.mem_singleton] at hr; subst hr
          exact Or.inr ⟨{}, rfl, rfl, rfl⟩)
      (Or.inl (by simp))).1 rNoMeta (by simp)⟩

/-- C6: over any freshly built index, `keywordSearch` equals the
positive-score candidate array (built in original corpus order), stably
sorted descending by summed TF-IDF score and truncated to `k`; every hit
has a strictly positive score and is the candidate of some corpus
position; the query tokenizing to no terms yields the empty list; and the
stable sort preserves, score class by score class, the original corpus
order (tie-breaking). -/
theorem keywordSearch_characterization (e0 : HybridEngine) (docs : List SrcDoc)
    (idf : String → ℚ) (q : String) (k : Nat) :
    keywordSearch (buildIndex e0 docs) idf q k =
      (if tokenize (preprocessText (.str q)) = [] then []
       else (sortByDesc (fun r => r.score)
         (keywordCandidates (buildIndex e0 docs) idf
           (tokenize (preprocessText (.str q))))).take k) ∧
    (keywordSearch (buildIndex e0 docs) idf q k).length ≤ k ∧
    (keywordSearch (buildIndex e0 docs) idf q k).Pairwise
      (fun a b => b.score ≤ a.score) ∧
    (∀ r ∈ keywordSearch (buildIndex e0 docs) idf q k,
      0 < r.score ∧ ∃ i, i < docs.length ∧
        candidateAt (buildIndex e0 docs) idf
          (tokenize (preprocessText (.str q))) i = some r) ∧
    (sortByDesc (fun r => r.score)
      (keywordCandidates (buildIndex e0 docs) idf
        (tokenize (preprocessText (.str q))))).Pairwise
      (fun a b => b.score ≤ a.score) ∧
    (∀ v : ℚ,
      (sortByDesc (fun r => r.score)
        (keywordCandidates (buildIndex e0 docs) idf
          (tokenize (preprocessText (.str q))))).filter (fun r => r.score = v) =
      (keywordCandidates (buildIndex e0 docs) idf
        (tokenize (preprocessText (.str q)))).filter (fun r => r.score = v)) := by
  have h1 : keywordSearch (buildIndex e0 docs) idf q k =
      (if tokenize (preprocessText (.str q)) = [] then []
       else (sortByDesc (fun r => r.score)
         (keywordCandidates (buildIndex e0 docs) idf
           (tokenize (preprocessText (.str q))))).take k) := by
    unfold keywordSearch
    rw [if_neg (show ¬ (buildIndex e0 docs).isIndexed = false by simp [buildIndex])]
  refine ⟨h1, ?_, ?_, ?_, sorted_sortByDesc _, fun v => filter_sortByDesc _⟩
  · rw [h1]
    by_cases ht : tokenize (preprocessText (.str q)) = []
    · simp [ht]
    · rw [if_neg ht, List.length_take]
      exact min_le_left _ _
  · rw [h1]
    by_cases ht : tokenize (preprocessText (.str q)) = []
    · simp [ht]
    · rw [if_neg ht]
      exact List.Pairwise.sublist (List.take_sublist _ _) (sorted_sortByDesc _)
  · intro r hr
    exact keywordSearch_buildIndex_mem e0 docs idf q k r hr

/-- The two-chunk example corpus of the spec's end-to-end scenario. -/
def twoChunkDocs : List SrcDoc :=
  [{ content := .str "apples are red", metadata := some metaA },
   { content := .str "bananas are yellow", metadata := some metaB }]

/-- C6 witness: the characterization instantiated on the two-chunk corpus
and the query `apples`. -/
theorem keywordSearch_characterization_witness :
    (keywordSearch (buildIndex {} twoChunkDocs) idf1 "apples" 5).length ≤ 5 ∧
    (keywordSearch (buildIndex {} twoChunkDocs) idf1 "apples" 5).Pairwise
      (fun a b => b.score ≤ a.score) :=
  ⟨(keywordSearch_characterization {} twoChunkDocs idf1 "apples" 5).2.1,
   (keywordSearch_characterization {} twoChunkDocs idf1 "apples" 5).2.2.1⟩

/-- C8: `extractSources` groups results by source key in first-seen order
(`dedupFirst` of the per-result keys), sorts every group's chunks
ascending by `chunkIndex` whatever order the results arrived in, and every
group carries the file type and processing timestamp of the first result
seen for its source. -/
theorem extractSources_grouping (rs : List QResult) :
    (∀ g ∈ extractSources rs,
      g.chunks.Pairwise (fun a b => a.chunkIndex ≤ b.chunkIndex)) ∧
    keysSG (extractSources rs) = dedupFirst (rs.map srcOf) ∧
    (∀ g ∈ extractSources rs, ∃ r, findR rs g.filename = some r ∧
      g.fileType = jsOrStr r.metadata.fileType "unknown" ∧
      g.processedAt = r.metadata.processedAt) := by
  have hkeys : keysSG (extractSources rs) = dedupFirst (rs.map srcOf) := by
    have hk0 : keysSG (extractSources rs) = keysSG (rs.foldl addResult []) := by
      unfold extractSources keysSG
      rw [List.map_map]
      apply List.map_congr_left
      intro g _
      rfl
    rw [hk0, keysSG_foldl_addResult rs []]
    show keysSG [] ++ newKeysQ rs (keysSG []) = _
    rw [show keysSG ([] : List SourceGroup) = [] from rfl, List.nil_append,
      newKeysQ_eq_dedupFirst rs []]
    congr 1
    rw [List.filter_eq_self]
    intro a _
    simp
  refine ⟨?_, hkeys, ?_⟩
  · intro g hg
    unfold extractSources at hg
    rcases List.mem_map.mp hg with ⟨g0, _, rfl⟩
    exact sorted_sortByAsc _
  · intro g hg
    have hnd : (keysSG (extractSources rs)).Nodup := by
      rw [hkeys]
      exact nodup_dedupFirst _
    have hfind : findG (extractSources rs) g.filename = some g :=
      findG_of_mem_nodup hnd hg
    have hpres : (findG (extractSources rs) g.filename).map groupHeader =
        (findG (rs.foldl addResult []) g.filename).map groupHeader := by
      unfold extractSources
      exact findG_map_headerPres
        (fun g => { g with chunks := sortByAsc (fun c => c.chunkIndex) g.chunks })
        (fun g' => rfl) (rs.foldl addResult []) g.filename
    rw [hfind, foldl_addResult_header rs [] g.filename] at hpres
    rw [show findG ([] : List SourceGroup) g.filename = none from rfl] at hpres
    unfold headerOr at hpres
    cases hfr : findR rs g.filename with
    | none =>
      rw [hfr] at hpres
      simp at hpres
    | some r =>
      rw [hfr] at hpres
      simp [groupHeader] at hpres
      exact ⟨r, rfl, hpres.1, hpres.2⟩

/-- Result metadata: chunk 3 of source `s1` (arrives first). -/
def qmS1a : ChunkMeta := { source := some "s1", chunkIndex := some 3 }

/-- Result metadata: chunk 0 of source `s2`, a PDF. -/
def qmS2 : ChunkMeta := { source := some "s2", chunkIndex := some 0, fileType := some "pdf" }

/-- Result metadata: chunk 1 of source `s1` (arrives after chunk 3). -/
def qmS1b : ChunkMeta := { source := some "s1", chunkIndex := some 1 }

/-- Out-of-order results over two sources. -/
def rsW : List QResult :=
  [{ score := 1, metadata := qmS1a },
   { score := 2, metadata := qmS2 },
   { score := 3, metadata := qmS1b }]

/-- The `s1` group `extractSources` builds from `rsW`: chunks re-sorted
ascending even though chunk 3 arrived first. -/
def gW : SourceGroup :=
  { filename := "s1", chunks := [⟨2, 3, ""⟩, ⟨4, 1, ""⟩],
    fileType := "unknown", processedAt := none }

/-- C8 witness: the grouping invariant instantiated on `rsW`. -/
theorem extractSources_grouping_witness :
    gW.chunks.Pairwise (fun a b => a.chunkIndex ≤ b.chunkIndex) ∧
    keysSG (extractSources rsW) = dedupFirst (rsW.map srcOf) :=
  ⟨(extractSources_grouping rsW).1 gW (by decide),
   (extractSources_grouping rsW).2.1⟩
